import Mathlib

/-!
# Verification of the concurrent linear-hashing table (`src/linear_hash.h`)

Shallow embedding of `LinearHash<K, V>` at its sequential (quiescent-point)
semantics:

* keys and values (`K`, `V`) are taken at `size_t`, modelled as `Nat`;
  `std::hash<K>` is an arbitrary pure function `h : Nat → Nat` passed to every
  operation (the C++ code calls the same hasher in `hash2bucket` and in the
  split loop);
* `std::vector` is `List`; a `Bucket` is its `entries` vector — the per-bucket
  `shared_mutex` and the global `shared_mutex` are synchronization only and
  have no sequential content, so they are not modelled;
* `std::atomic<size_t> num_elem` is a plain `Nat` field (quiescent semantics);
* the `double` load-factor arithmetic (`num_elem / table.size() >
  max_load_factor`) is modelled exactly over `ℚ`; every concrete load factor
  exercised by the claims (`1/2`, `3/4`) and every quotient compared against it
  in those runs is exactly representable in `double`, so the `ℚ` model agrees
  with the IEEE evaluation there;
* `size_t` arithmetic is modelled as unbounded `Nat`: no claim exercises
  64-bit wraparound (overflow of `init_size << depth` would need about `2^63`
  successful inserts);
* `table.at(i)` (which throws `std::out_of_range` for `i ≥ table.size()`) is
  modelled as the total access `List.getD i []`; the bounds theorem for the
  claims shows `hash2bucket` is in range in every reachable state, so the
  throwing branch is dead there;
* `throw std::invalid_argument` in the constructor is modelled by `Option`
  (`none` = the exception).
-/

/-- `LinearHash::Entry`: one key/value pair. -/
structure Entry where
  key : Nat
  value : Nat
deriving DecidableEq, Repr

/-- `LinearHash::Bucket::entries` (the mutex field has no sequential content). -/
abbrev Bucket := List Entry

/-- The data fields of `LinearHash` (mutexes omitted, `num_elem` deatomized). -/
structure LinearHash where
  table : List Bucket
  max_load_factor : ℚ
  num_elem : Nat
  split_ptr : Nat
  init_size : Nat
  depth : Nat
deriving DecidableEq, Repr

namespace LinearHash

/-- The constructor `LinearHash(size, load_factor)`: rejects (`none`, modelling
`throw std::invalid_argument`) exactly when `size == 0 || (size & (size - 1)) != 0`,
otherwise builds `init_size` empty buckets. -/
def make (size : Nat) (load_factor : ℚ) : Option LinearHash :=
  if size == 0 || (size &&& (size - 1)) != 0 then
    none
  else
    some { table := List.replicate size []
           max_load_factor := load_factor
           num_elem := 0
           split_ptr := 0
           init_size := size
           depth := 0 }

/-- `LinearHash::hash2bucket`: the linear-hashing address function. -/
def hash2bucket (h : Nat → Nat) (t : LinearHash) (key : Nat) : Nat :=
  let hv := h key
  let pre_expansion_size := t.init_size <<< t.depth
  let mask := pre_expansion_size - 1
  let index := hv &&& mask
  if index < t.split_ptr then
    hv &&& ((mask <<< 1) + 1)
  else
    index

/-- `LinearHash::should_split`: the load-factor check
`static_cast<double>(num_elem) / static_cast<double>(table.size()) > max_load_factor`.
The real-number comparison is modelled exactly over `ℚ` and written
multiplicatively (cross-multiplied by the two positive denominators) so that it
is kernel-computable; `should_split_iff_load` proves it equal to the division
form `num_elem / table.length > max_load_factor`. -/
def should_split (t : LinearHash) : Bool :=
  if t.table.isEmpty then
    false
  else
    decide (t.max_load_factor.num * (t.table.length : Int) <
      (t.num_elem : Int) * (t.max_load_factor.den : Int))

/-- One split step: the body of the `if (should_split())` block in
`LinearHash::insert`.  Appends a fresh bucket, redistributes the bucket at
`split_ptr` by the newly significant hash bit (`higher_mask`), advances
`split_ptr` and wraps it into `depth`. -/
def splitStep (h : Nat → Nat) (t : LinearHash) : LinearHash :=
  let table1 := t.table ++ [[]]
  let original := table1.getD t.split_ptr []
  let higher_mask := t.init_size <<< t.depth
  let new_bucket := original.filter (fun e => (h e.key) &&& higher_mask != 0)
  let temp := original.filter (fun e => (h e.key) &&& higher_mask == 0)
  let table2 := (table1.set t.split_ptr temp).set (table1.length - 1) new_bucket
  let sp1 := t.split_ptr + 1
  if sp1 ≥ t.init_size <<< t.depth then
    { t with table := table2, split_ptr := 0, depth := t.depth + 1 }
  else
    { t with table := table2, split_ptr := sp1 }

/-- The overwrite scan of `LinearHash::insert`: first entry whose key matches
gets its value replaced (`entry.value = val`); `none` if no entry matches. -/
def overwriteList (key val : Nat) : Bucket → Option Bucket
  | [] => none
  | e :: es =>
    if e.key = key then
      some ({ key := e.key, value := val } :: es)
    else
      (overwriteList key val es).map (fun es' => e :: es')

/-- The state of `LinearHash::insert` at the end of its lock scope, before the
split check: value overwritten in place, or entry appended and `num_elem`
incremented. -/
def insertPending (h : Nat → Nat) (t : LinearHash) (key val : Nat) : LinearHash :=
  let i := hash2bucket h t key
  let bucket := t.table.getD i []
  match overwriteList key val bucket with
  | some b' => { t with table := t.table.set i b' }
  | none =>
    { t with table := t.table.set i (bucket ++ [{ key := key, value := val }])
             num_elem := t.num_elem + 1 }

/-- `LinearHash::insert`: overwrite in place (early return, no split check), or
append, increment `num_elem`, and run at most one split step if the load
condition holds.  (Sequentially the re-check under the exclusive lock evaluates
the same state, so one check suffices.) -/
def insert (h : Nat → Nat) (t : LinearHash) (key val : Nat) : LinearHash :=
  let i := hash2bucket h t key
  let bucket := t.table.getD i []
  match overwriteList key val bucket with
  | some b' => { t with table := t.table.set i b' }
  | none =>
    let t1 : LinearHash :=
      { t with table := t.table.set i (bucket ++ [{ key := key, value := val }])
               num_elem := t.num_elem + 1 }
    if t1.should_split then splitStep h t1 else t1

/-- `LinearHash::get`: linear probe of the addressed bucket; `none` models
`std::nullopt`. -/
def get (h : Nat → Nat) (t : LinearHash) (key : Nat) : Option Nat :=
  let bucket := t.table.getD (hash2bucket h t key) []
  (bucket.find? (fun e => e.key == key)).map Entry.value

/-- `LinearHash::in`: membership probe (named `contains` here because `in` is a
Lean keyword). -/
def contains (h : Nat → Nat) (t : LinearHash) (key : Nat) : Bool :=
  (t.table.getD (hash2bucket h t key) []).any (fun e => e.key == key)

/-- `LinearHash::remove`: swap-and-pop of the first entry whose key matches in
the addressed bucket (`bucket[i] = std::move(bucket.back()); bucket.pop_back()`),
decrementing `num_elem`; returns whether a removal happened. -/
def remove (h : Nat → Nat) (t : LinearHash) (key : Nat) : Bool × LinearHash :=
  let i := hash2bucket h t key
  let bucket := t.table.getD i []
  match bucket.findIdx? (fun e => e.key == key) with
  | none => (false, t)
  | some j =>
    let b' := (bucket.set j (bucket.getLastD { key := 0, value := 0 })).dropLast
    (true, { t with table := t.table.set i b', num_elem := t.num_elem - 1 })

end LinearHash

/-- One public mutating operation. -/
inductive Op where
  | ins (key val : Nat)
  | rem (key : Nat)
deriving DecidableEq, Repr

/-- Apply one operation to the table. -/
def applyOp (h : Nat → Nat) (t : LinearHash) : Op → LinearHash
  | Op.ins k v => t.insert h k v
  | Op.rem k => (t.remove h k).2

/-- Run a sequence of operations left to right. -/
def run (h : Nat → Nat) (t : LinearHash) (ops : List Op) : LinearHash :=
  ops.foldl (applyOp h) t

/-- The effect of a single operation on the observable binding of key `k`:
`some (some v)` for an insert of `k`, `some none` for a remove of `k`, `none`
when the operation does not touch `k`. -/
def opEffect (k : Nat) : Op → Option (Option Nat)
  | Op.ins k' v => if k' = k then some (some v) else none
  | Op.rem k' => if k' = k then some none else none

/-- The value of the last `insert(k, v)` in `ops` not followed by a
`remove(k)`; `none` when `k` was never inserted or was last removed. -/
def lastWrite (ops : List Op) (k : Nat) : Option Nat :=
  (ops.reverse.findSome? (opEffect k)).getD none

/-- Modelled from the spec (§4.1): the addressing formula written with the
sequence `mask_hi = (mask_low << 1) | 1`, stated purely in
`(h(k), init_size << depth, split_ptr)` — the refinement target for
`hash2bucket`. -/
def addrSpec (hk preSize sp : Nat) : Nat :=
  let mask_low := preSize - 1
  let i0 := hk &&& mask_low
  if i0 < sp then hk &&& ((mask_low <<< 1) ||| 1) else i0

namespace LinearHash

/-- Iterator state: `_bucket_idx` and `_entry_idx` (the table reference is
passed separately). -/
structure Iterator where
  bucket_idx : Nat
  entry_idx : Nat
deriving DecidableEq, Repr

/-- `Iterator::go2data`: advance `bucket_idx` over physically empty buckets. -/
def go2data (tbl : List Bucket) (b : Nat) : Nat :=
  if hb : b < tbl.length then
    if (tbl.get ⟨b, hb⟩).isEmpty then go2data tbl (b + 1) else b
  else b
termination_by tbl.length - b

/-- The `Iterator` constructor: skips forward to data when the starting bucket
exists and is empty. -/
def iterInit (tbl : List Bucket) (b e : Nat) : Iterator :=
  if b < tbl.length ∧ (tbl.getD b []).isEmpty then
    { bucket_idx := go2data tbl b, entry_idx := e }
  else
    { bucket_idx := b, entry_idx := e }

/-- `LinearHash::begin()`. -/
def iterBegin (tbl : List Bucket) : Iterator := iterInit tbl 0 0

/-- `LinearHash::end()`. -/
def iterEnd (tbl : List Bucket) : Iterator := iterInit tbl tbl.length 0

/-- `Iterator::operator++`: advance `entry_idx`, roll over to the next bucket
on overflow, then skip empty buckets. -/
def iterNext (tbl : List Bucket) (it : Iterator) : Iterator :=
  let e := it.entry_idx + 1
  if e ≥ (tbl.getD it.bucket_idx []).length then
    { bucket_idx := go2data tbl (it.bucket_idx + 1), entry_idx := 0 }
  else
    { bucket_idx := go2data tbl it.bucket_idx, entry_idx := e }

/-- Fuel-indexed collection of the entries visited by repeatedly dereferencing
(`operator*`) and incrementing the iterator until `bucket_idx` leaves the
table. -/
def iterCollect (tbl : List Bucket) : Nat → Iterator → List Entry
  | 0, _ => []
  | fuel + 1, it =>
    if it.bucket_idx < tbl.length then
      match (tbl.getD it.bucket_idx [])[it.entry_idx]? with
      | some e => e :: iterCollect tbl fuel (iterNext tbl it)
      | none => []
    else []

/-- Enough fuel to drive any iteration over `tbl` to the end. -/
def iterFuel (tbl : List Bucket) : Nat :=
  tbl.length + (tbl.map List.length).sum + 1

/-- The full sequence of entries an iteration from `begin()` to `end()`
visits. -/
def iterTraverse (tbl : List Bucket) : List Entry :=
  iterCollect tbl (iterFuel tbl) (iterBegin tbl)

end LinearHash

/-- Total entry count of a table. -/
def sumLen (tbl : List Bucket) : Nat := (tbl.map List.length).sum

namespace LinearHash

/-- Entries of the split bucket retained in place (new considered bit 0). -/
def splitKeep (h : Nat → Nat) (t : LinearHash) : Bucket :=
  (t.table.getD t.split_ptr []).filter
    (fun e => (h e.key) &&& (t.init_size <<< t.depth) == 0)

/-- Entries of the split bucket moved to the appended bucket (bit 1). -/
def splitMoved (h : Nat → Nat) (t : LinearHash) : Bucket :=
  (t.table.getD t.split_ptr []).filter
    (fun e => (h e.key) &&& (t.init_size <<< t.depth) != 0)

/-! ## The well-formedness invariant -/

/-- Placement invariant (spec invariant 4): every entry lives in the bucket the
address function currently computes for its key.  (For `i ≥ table.length` the
`getD` default makes the statement vacuous.) -/
def addrOk (h : Nat → Nat) (t : LinearHash) : Prop :=
  ∀ i : Nat, ∀ e ∈ t.table.getD i [], hash2bucket h t e.key = i

/-- Within-bucket key uniqueness (spec invariant 5). -/
def keysNodup (t : LinearHash) : Prop :=
  ∀ i : Nat, ((t.table.getD i []).map Entry.key).Nodup

/-- The quiescent-point well-formedness invariant of a table. -/
structure WF (h : Nat → Nat) (t : LinearHash) : Prop where
  pow : ∃ j, t.init_size = 2 ^ j
  sp_lt : t.split_ptr < t.init_size <<< t.depth
  len_eq : t.table.length = (t.init_size <<< t.depth) + t.split_ptr
  addr : addrOk h t
  nodup : keysNodup t
  count : t.num_elem = sumLen t.table

/-- A fresh table constructed with `(2, 0.75)` (the successful branch of
`make 2 (3/4)`). -/
def t0ex : LinearHash :=
  { table := [[], []], max_load_factor := mkRat 3 4, num_elem := 0, split_ptr := 0,
    init_size := 2, depth := 0 }

/-- A fresh table constructed with `(2, 0.5)` (the successful branch of
`make 2 (1/2)`). -/
def t0half : LinearHash :=
  { table := [[], []], max_load_factor := mkRat 1 2, num_elem := 0, split_ptr := 0,
    init_size := 2, depth := 0 }

/-- A populated example state. -/
def tex1 : LinearHash := insert id t0ex 1 10

/-- A state satisfying the two invariants named by the safety claim but with
`init_size = 3`, which is not a power of two (unreachable through the checked
constructor). -/
def badState : LinearHash :=
  { table := [[], [], [], []], max_load_factor := mkRat 3 4, num_elem := 0,
    split_ptr := 1, init_size := 3, depth := 0 }

end LinearHash

/-! ## List access helpers -/

lemma getD_set_self {α : Type} (l : List α) {i : Nat} (hi : i < l.length) (x d : α) :
    (l.set i x).getD i d = x := by
  rw [List.getD_eq_getElem?_getD, List.getElem?_set_self hi]
  rfl

lemma getD_set_ne {α : Type} (l : List α) {i j : Nat} (hij : i ≠ j) (x d : α) :
    (l.set i x).getD j d = l.getD j d := by
  rw [List.getD_eq_getElem?_getD, List.getElem?_set_ne hij, ← List.getD_eq_getElem?_getD]

lemma getD_append_lt {α : Type} (l₁ l₂ : List α) {n : Nat} (h : n < l₁.length) (d : α) :
    (l₁ ++ l₂).getD n d = l₁.getD n d := by
  rw [List.getD_eq_getElem?_getD, List.getElem?_append_left h, ← List.getD_eq_getElem?_getD]

lemma getD_append_len {α : Type} (l₁ : List α) (x d : α) :
    (l₁ ++ [x]).getD l₁.length d = x := by
  rw [List.getD_eq_getElem?_getD, List.getElem?_append_right (Nat.le_refl _)]
  simp

lemma getD_len_ge {α : Type} (l : List α) {n : Nat} (h : l.length ≤ n) (d : α) :
    l.getD n d = d := by
  rw [List.getD_eq_getElem?_getD, List.getElem?_eq_none h]
  rfl

lemma sumLen_nil : sumLen [] = 0 := rfl

lemma sumLen_cons (b : Bucket) (bs : List Bucket) :
    sumLen (b :: bs) = b.length + sumLen bs := by
  simp [sumLen]

lemma sumLen_append_singleton (tbl : List Bucket) (x : Bucket) :
    sumLen (tbl ++ [x]) = sumLen tbl + x.length := by
  simp [sumLen]

lemma sumLen_set (tbl : List Bucket) {i : Nat} (hi : i < tbl.length) (x : Bucket) :
    sumLen (tbl.set i x) + (tbl.getD i []).length = sumLen tbl + x.length := by
  induction tbl generalizing i with
  | nil => simp at hi
  | cons b bs ih =>
    cases i with
    | zero => simp [sumLen_cons]; omega
    | succ i =>
      have hi' : i < bs.length := by simpa using hi
      have := ih hi'
      simp only [List.set, sumLen_cons, List.getD_cons_succ]
      omega

lemma getD_length_le_sumLen (tbl : List Bucket) (i : Nat) :
    (tbl.getD i []).length ≤ sumLen tbl := by
  induction tbl generalizing i with
  | nil => simp [List.getD]
  | cons b bs ih =>
    cases i with
    | zero => simp [sumLen_cons]
    | succ i =>
      have := ih i
      simp only [List.getD_cons_succ, sumLen_cons]
      omega

/-! ## Bit arithmetic helpers -/

lemma two_mul_or_one (a : Nat) : 2 * a ||| 1 = 2 * a + 1 := by
  have h := Nat.lor_bit false a true 0
  simpa [Nat.bit] using h

lemma exists_pow_of_and_pred {n : Nat} (h0 : n ≠ 0) (h : n &&& (n - 1) = 0) :
    ∃ j, n = 2 ^ j := by
  refine ⟨n.log2, ?_⟩
  have h1 : 2 ^ n.log2 ≤ n := Nat.log2_self_le h0
  have h2 : n < 2 ^ (n.log2 + 1) := Nat.lt_log2_self
  by_contra hne
  have hpow : (0:Nat) < 2 ^ n.log2 := Nat.pos_pow_of_pos _ (by norm_num)
  have hr1 : 2 ^ n.log2 + 1 ≤ n := by
    rcases Nat.lt_or_ge (2 ^ n.log2) n with hlt | hge
    · omega
    · omega
  have hd1 : n / 2 ^ n.log2 = 1 := by
    rw [Nat.pow_succ] at h2
    apply Nat.div_eq_of_lt_le <;> omega
  have hd2 : (n - 1) / 2 ^ n.log2 = 1 := by
    rw [Nat.pow_succ] at h2
    apply Nat.div_eq_of_lt_le <;> omega
  have hb : (n &&& (n - 1)).testBit n.log2 = true := by
    rw [Nat.testBit_land, Nat.testBit_to_div_mod, Nat.testBit_to_div_mod, hd1, hd2]
    norm_num
  rw [h, Nat.zero_testBit] at hb
  exact Bool.false_ne_true hb

lemma pow_and_pred (j : Nat) : (2 ^ j) &&& (2 ^ j - 1) = 0 := by
  simp [Nat.and_pow_two_sub_one_eq_mod]

lemma and_pow_ne_zero_iff (x m : Nat) : (x &&& 2 ^ m ≠ 0) ↔ x / 2 ^ m % 2 = 1 := by
  rw [Nat.and_two_pow, Nat.testBit_to_div_mod]
  rcases Nat.lt_succ_iff.mp (Nat.mod_lt (x / 2 ^ m) (show (0:Nat) < 2 by norm_num)) with h
  constructor
  · intro hne
    by_contra hx
    simp [hx] at hne
  · intro hx
    have hp : (0:Nat) < 2 ^ m := Nat.pos_pow_of_pos _ (by norm_num)
    simp [hx]

namespace LinearHash

/-! ## The address function -/

/-- Under the power-of-two invariant the address function is a conditional
modulus. -/
lemma hash2bucket_pow {h : Nat → Nat} {t : LinearHash} {m : Nat}
    (hm : t.init_size <<< t.depth = 2 ^ m) (k : Nat) :
    hash2bucket h t k =
      if (h k) % 2 ^ m < t.split_ptr then (h k) % 2 ^ (m + 1) else (h k) % 2 ^ m := by
  have hmask : (2 ^ m - 1) <<< 1 + 1 = 2 ^ (m + 1) - 1 := by
    rw [Nat.shiftLeft_eq, Nat.pow_one, Nat.pow_succ]
    have h1 : (1:Nat) ≤ 2 ^ m := Nat.one_le_two_pow
    omega
  simp only [hash2bucket, hm, hmask, Nat.and_pow_two_sub_one_eq_mod]

/-- The bucket index that a mod-`2^(m+1)` address adds on top of the
mod-`2^m` address is exactly the freshly significant bit. -/
lemma mod_two_pow_succ (x m : Nat) :
    x % 2 ^ (m + 1) = x % 2 ^ m + 2 ^ m * (x / 2 ^ m % 2) := by
  rw [Nat.pow_succ, Nat.mod_mul]

/-- Under the state invariants the address is always in range. -/
lemma hash2bucket_lt {h : Nat → Nat} {t : LinearHash} {m : Nat}
    (hm : t.init_size <<< t.depth = 2 ^ m) (k : Nat) :
    hash2bucket h t k < 2 ^ m + t.split_ptr := by
  rw [hash2bucket_pow hm]
  have hmod : (h k) % 2 ^ m < 2 ^ m := Nat.mod_lt _ (Nat.pos_pow_of_pos _ (by norm_num))
  split
  · rw [mod_two_pow_succ]
    have hbit : (h k) / 2 ^ m % 2 ≤ 1 :=
      Nat.lt_succ_iff.mp (Nat.mod_lt _ (by norm_num))
    rcases Nat.le_one_iff_eq_zero_or_eq_one.mp hbit with h0 | h1
    · rw [h0, Nat.mul_zero]
      omega
    · rw [h1, Nat.mul_one]
      omega
  · omega

end LinearHash

namespace LinearHash

lemma WF.Lpow {h : Nat → Nat} {t : LinearHash} (w : WF h t) :
    ∃ m, t.init_size <<< t.depth = 2 ^ m := by
  obtain ⟨j, hj⟩ := w.pow
  exact ⟨j + t.depth, by rw [hj, Nat.shiftLeft_eq, ← Nat.pow_add]⟩

/-! ## Bucket-level lemmas -/

lemma overwriteList_none_iff (key val : Nat) (l : Bucket) :
    overwriteList key val l = none ↔ ∀ e ∈ l, e.key ≠ key := by
  induction l with
  | nil => simp [overwriteList]
  | cons e es ih =>
    simp only [overwriteList]
    split
    · simp_all
    · cases hov : overwriteList key val es with
      | none =>
        rw [hov] at ih
        simp_all
      | some es' =>
        rw [hov] at ih
        simp_all

lemma overwriteList_some_map_key {key val : Nat} {l l' : Bucket}
    (h : overwriteList key val l = some l') : l'.map Entry.key = l.map Entry.key := by
  induction l generalizing l' with
  | nil => simp [overwriteList] at h
  | cons e es ih =>
    simp only [overwriteList] at h
    split at h
    · rw [Option.some.injEq] at h
      subst h
      simp
    · cases hov : overwriteList key val es with
      | none => rw [hov] at h; simp at h
      | some es' =>
        rw [hov] at h
        simp only [Option.map_some', Option.some.injEq] at h
        subst h
        simp [ih hov]

lemma overwriteList_length {key val : Nat} {l l' : Bucket}
    (h : overwriteList key val l = some l') : l'.length = l.length := by
  have := congrArg List.length (overwriteList_some_map_key h)
  simpa using this

lemma overwriteList_find_self {key val : Nat} {l l' : Bucket}
    (h : overwriteList key val l = some l') :
    l'.find? (fun e => e.key == key) = some { key := key, value := val } := by
  induction l generalizing l' with
  | nil => simp [overwriteList] at h
  | cons e es ih =>
    simp only [overwriteList] at h
    split at h
    · rename_i hke
      rw [Option.some.injEq] at h
      subst h
      simp [List.find?_cons, hke]
    · rename_i hke
      cases hov : overwriteList key val es with
      | none => rw [hov] at h; simp at h
      | some es' =>
        rw [hov] at h
        simp only [Option.map_some', Option.some.injEq] at h
        subst h
        have hne : (e.key == key) = false := by simp [hke]
        simp [List.find?_cons, hne, ih hov]

lemma overwriteList_find_ne {key val k' : Nat} (hne : k' ≠ key) {l l' : Bucket}
    (h : overwriteList key val l = some l') :
    l'.find? (fun e => e.key == k') = l.find? (fun e => e.key == k') := by
  induction l generalizing l' with
  | nil => simp [overwriteList] at h
  | cons e es ih =>
    simp only [overwriteList] at h
    split at h
    · rename_i hke
      rw [Option.some.injEq] at h
      subst h
      have : (key == k') = false := by
        simp
        exact fun hk => hne hk.symm
      simp [List.find?_cons, hke, this]
    · cases hov : overwriteList key val es with
      | none => rw [hov] at h; simp at h
      | some es' =>
        rw [hov] at h
        simp only [Option.map_some', Option.some.injEq] at h
        subst h
        by_cases hek : e.key = k'
        · simp [List.find?_cons, hek]
        · have : (e.key == k') = false := by simp [hek]
          simp [List.find?_cons, this, ih hov]

lemma overwriteList_self_of_find {l : Bucket} {key val : Nat}
    (h : l.find? (fun e => e.key == key) = some { key := key, value := val }) :
    overwriteList key val l = some l := by
  induction l with
  | nil => simp [List.find?] at h
  | cons e es ih =>
    by_cases hke : e.key = key
    · have : (e.key == key) = true := by simp [hke]
      rw [List.find?_cons, this] at h
      simp only [cond_true, Option.some.injEq] at h
      simp only [overwriteList, if_pos hke]
      subst h
      simp
    · have hfalse : (e.key == key) = false := by simp [hke]
      rw [List.find?_cons, hfalse] at h
      simp only [cond_false] at h
      simp [overwriteList, if_neg hke, ih h]

lemma find?_eq_some_of_key_mem {l : Bucket} {k : Nat} {e : Entry}
    (hnd : (l.map Entry.key).Nodup) (he : e ∈ l) (hk : e.key = k) :
    l.find? (fun x => x.key == k) = some e := by
  induction l with
  | nil => simp at he
  | cons a as ih =>
    simp only [List.map_cons, List.nodup_cons] at hnd
    rcases List.mem_cons.mp he with rfl | hmem
    · have : (e.key == k) = true := by simp [hk]
      simp [List.find?_cons, this]
    · have hak : a.key ≠ k := by
        intro hak
        exact hnd.1 (by rw [hak, ← hk]; exact List.mem_map_of_mem Entry.key hmem)
      have : (a.key == k) = false := by simp [hak]
      simp only [List.find?_cons, this, cond_false]
      exact ih hnd.2 hmem

lemma find?_eq_none_of_no_key {l : Bucket} {k : Nat}
    (h : ∀ e ∈ l, e.key ≠ k) :
    l.find? (fun x => x.key == k) = none := by
  rw [List.find?_eq_none]
  intro e he
  simp [h e he]

lemma find?_filter_of_imp {l : Bucket} {p q : Entry → Bool}
    (h : ∀ e, p e = true → q e = true) :
    (l.filter q).find? p = l.find? p := by
  induction l with
  | nil => rfl
  | cons a as ih =>
    by_cases hq : q a = true
    · rw [List.filter_cons_of_pos hq]
      by_cases hp : p a = true
      · simp [List.find?_cons, hp]
      · have hp' : p a = false := by simpa using hp
        simp [List.find?_cons, hp', ih]
    · have hq' : q a = false := by simpa using hq
      have hp' : p a = false := by
        rcases Bool.eq_false_or_eq_true (p a) with h' | h'
        · exact absurd (h a h') hq
        · exact h'
      rw [List.filter_cons_of_neg (by simp [hq'])]
      simp [List.find?_cons, hp', ih]

end LinearHash

namespace LinearHash

lemma splitStep_init_size (h : Nat → Nat) (t : LinearHash) :
    (splitStep h t).init_size = t.init_size := by
  simp only [splitStep]
  split <;> rfl

lemma splitStep_num_elem (h : Nat → Nat) (t : LinearHash) :
    (splitStep h t).num_elem = t.num_elem := by
  simp only [splitStep]
  split <;> rfl

lemma splitStep_table_eq (h : Nat → Nat) (t : LinearHash)
    (hsp : t.split_ptr < t.table.length) :
    (splitStep h t).table =
      ((t.table ++ [[]]).set t.split_ptr (splitKeep h t)).set t.table.length
        (splitMoved h t) := by
  have h1 : (t.table ++ [[]]).getD t.split_ptr [] = t.table.getD t.split_ptr [] :=
    getD_append_lt _ _ hsp _
  have h2 : (t.table ++ ([[]] : List Bucket)).length - 1 = t.table.length := by
    simp
  simp only [splitStep, h1, h2, splitKeep, splitMoved]
  split <;> rfl

lemma splitStep_length (h : Nat → Nat) (t : LinearHash)
    (hsp : t.split_ptr < t.table.length) :
    (splitStep h t).table.length = t.table.length + 1 := by
  rw [splitStep_table_eq h t hsp]
  simp

lemma splitStep_getD_other {h : Nat → Nat} {t : LinearHash}
    (hsp : t.split_ptr < t.table.length) {j : Nat} (hj1 : j ≠ t.split_ptr)
    (hj2 : j ≠ t.table.length) :
    (splitStep h t).table.getD j [] = t.table.getD j [] := by
  rw [splitStep_table_eq h t hsp]
  rw [getD_set_ne _ (fun hh => hj2 hh.symm) _ _, getD_set_ne _ (fun hh => hj1 hh.symm) _ _]
  rcases Nat.lt_or_ge j t.table.length with hlt | hge
  · exact getD_append_lt _ _ hlt _
  · have hgt : t.table.length + 1 ≤ j := by omega
    rw [getD_len_ge _ (by simpa using hgt) _, getD_len_ge _ (by omega) _]

lemma splitStep_getD_sp {h : Nat → Nat} {t : LinearHash}
    (hsp : t.split_ptr < t.table.length) :
    (splitStep h t).table.getD t.split_ptr [] = splitKeep h t := by
  have hlt1 : t.split_ptr < (t.table ++ ([[]] : List Bucket)).length := by
    simp
    omega
  rw [splitStep_table_eq h t hsp]
  rw [getD_set_ne _ (Nat.ne_of_lt hsp).symm _ _, getD_set_self _ hlt1 _ _]

lemma splitStep_getD_top {h : Nat → Nat} {t : LinearHash}
    (hsp : t.split_ptr < t.table.length) :
    (splitStep h t).table.getD t.table.length [] = splitMoved h t := by
  have hlt1 : t.table.length < ((t.table ++ ([[]] : List Bucket)).set t.split_ptr (splitKeep h t)).length := by
    simp
  rw [splitStep_table_eq h t hsp, getD_set_self _ hlt1 _ _]

end LinearHash

namespace LinearHash

lemma hash2bucket_congr (h : Nat → Nat) (t t' : LinearHash)
    (h1 : t'.init_size = t.init_size) (h2 : t'.depth = t.depth)
    (h3 : t'.split_ptr = t.split_ptr) (k : Nat) :
    hash2bucket h t' k = hash2bucket h t k := by
  simp [hash2bucket, h1, h2, h3]

lemma shiftLeft_succ_eq (a n : Nat) : a <<< (n + 1) = (a <<< n) * 2 := by
  rw [Nat.shiftLeft_eq, Nat.shiftLeft_eq, Nat.pow_succ]
  ring

lemma splitStep_scalars_wrap {h : Nat → Nat} {t : LinearHash}
    (hw : t.split_ptr + 1 ≥ t.init_size <<< t.depth) :
    (splitStep h t).split_ptr = 0 ∧ (splitStep h t).depth = t.depth + 1 := by
  constructor <;> simp [splitStep, hw]

lemma splitStep_scalars_nowrap {h : Nat → Nat} {t : LinearHash}
    (hw : ¬ t.split_ptr + 1 ≥ t.init_size <<< t.depth) :
    (splitStep h t).split_ptr = t.split_ptr + 1 ∧ (splitStep h t).depth = t.depth := by
  constructor <;> simp [splitStep, hw]

lemma splitStep_addr {h : Nat → Nat} {t : LinearHash} {m : Nat}
    (hm : t.init_size <<< t.depth = 2 ^ m) (hsp : t.split_ptr < 2 ^ m) (k : Nat) :
    hash2bucket h (splitStep h t) k =
      if (h k) % 2 ^ m < t.split_ptr + 1 then (h k) % 2 ^ (m + 1)
      else (h k) % 2 ^ m := by
  by_cases hw : t.split_ptr + 1 ≥ t.init_size <<< t.depth
  · obtain ⟨hs, hd⟩ := splitStep_scalars_wrap hw
    have hm' : (splitStep h t).init_size <<< (splitStep h t).depth = 2 ^ (m + 1) := by
      rw [splitStep_init_size, hd, shiftLeft_succ_eq, hm, Nat.pow_succ]
    rw [hash2bucket_pow hm', hs]
    rw [hm] at hw
    rw [if_neg (Nat.not_lt_zero _), if_pos (by omega)]
  · obtain ⟨hs, hd⟩ := splitStep_scalars_nowrap hw
    have hm' : (splitStep h t).init_size <<< (splitStep h t).depth = 2 ^ m := by
      rw [splitStep_init_size, hd, hm]
    rw [hash2bucket_pow hm', hs]

lemma get_splitStep {h : Nat → Nat} {t : LinearHash} {m : Nat}
    (hm : t.init_size <<< t.depth = 2 ^ m) (hsp : t.split_ptr < 2 ^ m)
    (hlen : t.table.length = 2 ^ m + t.split_ptr) (k : Nat) :
    get h (splitStep h t) k = get h t k := by
  have hsplt : t.split_ptr < t.table.length := by omega
  have hxm : (h k) % 2 ^ m < 2 ^ m := Nat.mod_lt _ (Nat.pos_pow_of_pos _ (by norm_num))
  have hbit : (h k) / 2 ^ m % 2 ≤ 1 := Nat.lt_succ_iff.mp (Nat.mod_lt _ (by norm_num))
  have hdec := mod_two_pow_succ (h k) m
  unfold get
  rw [splitStep_addr hm hsp k, hash2bucket_pow hm k]
  rcases Nat.lt_trichotomy ((h k) % 2 ^ m) t.split_ptr with hlt | heq | hgt
  · rw [if_pos (by omega), if_pos hlt]
    have hne1 : (h k) % 2 ^ (m + 1) ≠ t.split_ptr := by
      rcases Nat.le_one_iff_eq_zero_or_eq_one.mp hbit with h0 | h1
      · rw [h0, Nat.mul_zero] at hdec; omega
      · rw [h1, Nat.mul_one] at hdec; omega
    have hne2 : (h k) % 2 ^ (m + 1) ≠ t.table.length := by
      rcases Nat.le_one_iff_eq_zero_or_eq_one.mp hbit with h0 | h1
      · rw [h0, Nat.mul_zero] at hdec; omega
      · rw [h1, Nat.mul_one] at hdec; omega
    rw [splitStep_getD_other hsplt hne1 hne2]
  · rw [if_pos (by omega), if_neg (by omega)]
    rcases Nat.le_one_iff_eq_zero_or_eq_one.mp hbit with h0 | h1
    · have hidx : (h k) % 2 ^ (m + 1) = t.split_ptr := by
        rw [h0, Nat.mul_zero] at hdec; omega
      rw [hidx, splitStep_getD_sp hsplt, heq]
      simp only [splitKeep, hm, heq]
      congr 1
      apply find?_filter_of_imp
      intro e he
      simp only [beq_iff_eq] at he ⊢
      rw [he]
      by_contra hne0
      have := (and_pow_ne_zero_iff (h k) m).mp hne0
      omega
    · have hidx : (h k) % 2 ^ (m + 1) = t.table.length := by
        rw [h1, Nat.mul_one] at hdec; omega
      rw [hidx, splitStep_getD_top hsplt, heq]
      simp only [splitMoved, hm, heq]
      congr 1
      apply find?_filter_of_imp
      intro e he
      simp only [beq_iff_eq] at he
      simp only [bne_iff_ne, ne_eq]
      rw [he]
      simp only [← ne_eq]
      exact (and_pow_ne_zero_iff (h k) m).mpr h1
  · rw [if_neg (by omega), if_neg (by omega)]
    have hne1 : (h k) % 2 ^ m ≠ t.split_ptr := by omega
    have hne2 : (h k) % 2 ^ m ≠ t.table.length := by omega
    rw [splitStep_getD_other hsplt hne1 hne2]

end LinearHash

lemma filter_partition_length {α : Type} (l : List α) (p : α → Bool) :
    (l.filter p).length + (l.filter (fun e => ! p e)).length = l.length := by
  induction l with
  | nil => rfl
  | cons a as ih =>
    by_cases hp : p a = true
    · simp only [List.filter_cons, hp]
      simp
      omega
    · have hp' : p a = false := by simpa using hp
      simp only [List.filter_cons, hp']
      simp
      omega

namespace LinearHash

lemma wf_splitStep {h : Nat → Nat} {t : LinearHash} (w : WF h t) : WF h (splitStep h t) := by
  obtain ⟨m, hm⟩ := w.Lpow
  have hsp : t.split_ptr < 2 ^ m := by rw [← hm]; exact w.sp_lt
  have hlen : t.table.length = 2 ^ m + t.split_ptr := by rw [w.len_eq, hm]
  have hsplt : t.split_ptr < t.table.length := by omega
  constructor
  · rw [splitStep_init_size]
    exact w.pow
  · by_cases hw : t.split_ptr + 1 ≥ t.init_size <<< t.depth
    · obtain ⟨hs, hd⟩ := splitStep_scalars_wrap hw
      rw [hs, hd, splitStep_init_size, shiftLeft_succ_eq, hm]
      have hpos : (0:Nat) < 2 ^ m := Nat.pos_pow_of_pos _ (by norm_num)
      omega
    · obtain ⟨hs, hd⟩ := splitStep_scalars_nowrap hw
      rw [hs, hd, splitStep_init_size, hm]
      rw [hm] at hw
      omega
  · rw [splitStep_length h t hsplt]
    by_cases hw : t.split_ptr + 1 ≥ t.init_size <<< t.depth
    · obtain ⟨hs, hd⟩ := splitStep_scalars_wrap hw
      rw [hs, hd, splitStep_init_size, shiftLeft_succ_eq, hm]
      rw [hm] at hw
      omega
    · obtain ⟨hs, hd⟩ := splitStep_scalars_nowrap hw
      rw [hs, hd, splitStep_init_size, hm]
      omega
  · intro j e he
    rw [splitStep_addr hm hsp e.key]
    have hxm : (h e.key) % 2 ^ m < 2 ^ m :=
      Nat.mod_lt _ (Nat.pos_pow_of_pos _ (by norm_num))
    have hbit : (h e.key) / 2 ^ m % 2 ≤ 1 :=
      Nat.lt_succ_iff.mp (Nat.mod_lt _ (by norm_num))
    have hdec := mod_two_pow_succ (h e.key) m
    by_cases hj1 : j = t.split_ptr
    · subst hj1
      rw [splitStep_getD_sp hsplt] at he
      simp only [splitKeep, hm] at he
      rw [List.mem_filter] at he
      obtain ⟨hmem, hq⟩ := he
      simp only [beq_iff_eq] at hq
      have hb0 : (h e.key) / 2 ^ m % 2 = 0 := by
        by_contra hne
        have h1 : (h e.key) / 2 ^ m % 2 = 1 := by omega
        exact (and_pow_ne_zero_iff (h e.key) m).mpr h1 hq
      have hold := w.addr t.split_ptr e hmem
      rw [hash2bucket_pow hm] at hold
      have hi0 : (h e.key) % 2 ^ m = t.split_ptr := by
        by_cases hc : (h e.key) % 2 ^ m < t.split_ptr
        · rw [if_pos hc] at hold
          rw [hdec, hb0, Nat.mul_zero] at hold
          omega
        · rw [if_neg hc] at hold
          exact hold
      rw [if_pos (by omega), hdec, hb0, Nat.mul_zero]
      omega
    · by_cases hj2 : j = t.table.length
      · subst hj2
        rw [splitStep_getD_top hsplt] at he
        simp only [splitMoved, hm] at he
        rw [List.mem_filter] at he
        obtain ⟨hmem, hq⟩ := he
        simp only [bne_iff_ne, ne_eq] at hq
        have hb1 : (h e.key) / 2 ^ m % 2 = 1 := (and_pow_ne_zero_iff (h e.key) m).mp hq
        have hold := w.addr t.split_ptr e hmem
        rw [hash2bucket_pow hm] at hold
        have hi0 : (h e.key) % 2 ^ m = t.split_ptr := by
          by_cases hc : (h e.key) % 2 ^ m < t.split_ptr
          · rw [if_pos hc] at hold
            rw [hdec, hb1, Nat.mul_one] at hold
            omega
          · rw [if_neg hc] at hold
            exact hold
        rw [if_pos (by omega), hdec, hb1, Nat.mul_one]
        omega
      · rw [splitStep_getD_other hsplt hj1 hj2] at he
        have hold := w.addr j e he
        rw [hash2bucket_pow hm] at hold
        by_cases hc : (h e.key) % 2 ^ m < t.split_ptr
        · rw [if_pos hc] at hold
          rw [if_pos (by omega)]
          exact hold
        · rw [if_neg hc] at hold
          rw [if_neg (by omega)]
          exact hold
  · intro j
    by_cases hj1 : j = t.split_ptr
    · subst hj1
      rw [splitStep_getD_sp hsplt]
      simp only [splitKeep]
      exact ((List.filter_sublist _).map Entry.key).nodup (w.nodup t.split_ptr)
    · by_cases hj2 : j = t.table.length
      · subst hj2
        rw [splitStep_getD_top hsplt]
        simp only [splitMoved]
        exact ((List.filter_sublist _).map Entry.key).nodup (w.nodup t.split_ptr)
      · rw [splitStep_getD_other hsplt hj1 hj2]
        exact w.nodup j
  · rw [splitStep_num_elem, w.count, splitStep_table_eq h t hsplt]
    have l1 : t.table.length <
        ((t.table ++ [[]]).set t.split_ptr (splitKeep h t)).length := by
      simp
    have e1 := sumLen_set ((t.table ++ [[]]).set t.split_ptr (splitKeep h t)) l1
      (splitMoved h t)
    have l2 : t.split_ptr < (t.table ++ ([[]] : List Bucket)).length := by
      simp
      omega
    have e2 := sumLen_set (t.table ++ [[]]) l2 (splitKeep h t)
    have e3 : sumLen (t.table ++ [[]]) = sumLen t.table := by
      rw [sumLen_append_singleton]
      simp
    have e4 : ((t.table ++ [[]]).set t.split_ptr (splitKeep h t)).getD
        t.table.length [] = ([] : Bucket) := by
      rw [getD_set_ne _ (Nat.ne_of_lt hsplt) _ _, getD_append_len]
    have e5 : (t.table ++ [[]]).getD t.split_ptr [] = t.table.getD t.split_ptr [] :=
      getD_append_lt _ _ hsplt _
    have e6 : (splitKeep h t).length + (splitMoved h t).length =
        (t.table.getD t.split_ptr []).length := by
      have hpart := filter_partition_length (t.table.getD t.split_ptr [])
        (fun e => (h e.key) &&& (t.init_size <<< t.depth) == 0)
      simp only [splitKeep, splitMoved, bne]
      simpa using hpart
    rw [e4] at e1
    rw [e5] at e2
    rw [e3] at e2
    simp only [List.length_nil] at e1
    omega

end LinearHash

namespace LinearHash

lemma wf_hash2bucket_lt_len {h : Nat → Nat} {t : LinearHash} (w : WF h t) (k : Nat) :
    hash2bucket h t k < t.table.length := by
  obtain ⟨m, hm⟩ := w.Lpow
  rw [w.len_eq, hm]
  exact hash2bucket_lt hm k

lemma insertPending_scalars (h : Nat → Nat) (t : LinearHash) (k v : Nat) :
    (insertPending h t k v).init_size = t.init_size ∧
      (insertPending h t k v).depth = t.depth ∧
      (insertPending h t k v).split_ptr = t.split_ptr ∧
      (insertPending h t k v).max_load_factor = t.max_load_factor := by
  cases hov : overwriteList k v (t.table.getD (hash2bucket h t k) []) <;>
    simp only [insertPending, hov] <;> simp

lemma insertPending_addr (h : Nat → Nat) (t : LinearHash) (k v k' : Nat) :
    hash2bucket h (insertPending h t k v) k' = hash2bucket h t k' := by
  obtain ⟨h1, h2, h3, _⟩ := insertPending_scalars h t k v
  exact hash2bucket_congr h t _ h1 h2 h3 k'

lemma insertPending_table_over {h : Nat → Nat} {t : LinearHash} {k v : Nat} {b' : Bucket}
    (hov : overwriteList k v (t.table.getD (hash2bucket h t k) []) = some b') :
    (insertPending h t k v).table = t.table.set (hash2bucket h t k) b' ∧
      (insertPending h t k v).num_elem = t.num_elem := by
  simp only [insertPending, hov]
  simp

lemma insertPending_table_app {h : Nat → Nat} {t : LinearHash} {k v : Nat}
    (hov : overwriteList k v (t.table.getD (hash2bucket h t k) []) = none) :
    (insertPending h t k v).table =
      t.table.set (hash2bucket h t k)
        ((t.table.getD (hash2bucket h t k) []) ++ [{ key := k, value := v }]) ∧
      (insertPending h t k v).num_elem = t.num_elem + 1 := by
  simp only [insertPending, hov]
  simp

lemma insertPending_length (h : Nat → Nat) (t : LinearHash) (k v : Nat) :
    (insertPending h t k v).table.length = t.table.length := by
  cases hov : overwriteList k v (t.table.getD (hash2bucket h t k) []) <;>
    simp only [insertPending, hov] <;> simp

lemma insert_eq_pending_or_split (h : Nat → Nat) (t : LinearHash) (k v : Nat) :
    insert h t k v = insertPending h t k v ∨
      insert h t k v = splitStep h (insertPending h t k v) := by
  cases hov : overwriteList k v (t.table.getD (hash2bucket h t k) []) with
  | some b' =>
    left
    simp only [insert, insertPending, hov]
  | none =>
    simp only [insert, insertPending, hov]
    split
    · right
      rfl
    · left
      rfl

end LinearHash

namespace LinearHash

lemma get_insertPending_self {h : Nat → Nat} {t : LinearHash} (w : WF h t) (k v : Nat) :
    get h (insertPending h t k v) k = some v := by
  have hi : hash2bucket h t k < t.table.length := wf_hash2bucket_lt_len w k
  simp only [get]
  rw [insertPending_addr h t k v k]
  cases hov : overwriteList k v (t.table.getD (hash2bucket h t k) []) with
  | some b' =>
    rw [(insertPending_table_over hov).1, getD_set_self _ hi _ _,
      overwriteList_find_self hov]
    rfl
  | none =>
    rw [(insertPending_table_app hov).1, getD_set_self _ hi _ _, List.find?_append,
      find?_eq_none_of_no_key ((overwriteList_none_iff k v _).mp hov)]
    simp [List.find?_cons]

lemma get_insertPending_ne {h : Nat → Nat} {t : LinearHash} (w : WF h t) {k k' : Nat}
    (hne : k' ≠ k) (v : Nat) :
    get h (insertPending h t k v) k' = get h t k' := by
  have hi : hash2bucket h t k < t.table.length := wf_hash2bucket_lt_len w k
  simp only [get]
  rw [insertPending_addr h t k v k']
  by_cases hidx : hash2bucket h t k' = hash2bucket h t k
  · rw [hidx]
    cases hov : overwriteList k v (t.table.getD (hash2bucket h t k) []) with
    | some b' =>
      rw [(insertPending_table_over hov).1, getD_set_self _ hi _ _,
        overwriteList_find_ne hne hov]
    | none =>
      rw [(insertPending_table_app hov).1, getD_set_self _ hi _ _, List.find?_append]
      have hone : List.find? (fun e => e.key == k') [({ key := k, value := v } : Entry)] = none := by
        have : (k == k') = false := by
          simp
          exact fun hh => hne hh.symm
        simp [List.find?_cons, this]
      rw [hone, Option.or_none]
  · cases hov : overwriteList k v (t.table.getD (hash2bucket h t k) []) with
    | some b' =>
      rw [(insertPending_table_over hov).1, getD_set_ne _ (fun hh => hidx hh.symm) _ _]
    | none =>
      rw [(insertPending_table_app hov).1, getD_set_ne _ (fun hh => hidx hh.symm) _ _]

lemma wf_insertPending {h : Nat → Nat} {t : LinearHash} (w : WF h t) (k v : Nat) :
    WF h (insertPending h t k v) := by
  have hi : hash2bucket h t k < t.table.length := wf_hash2bucket_lt_len w k
  obtain ⟨hs1, hs2, hs3, _⟩ := insertPending_scalars h t k v
  have hlen := insertPending_length h t k v
  cases hov : overwriteList k v (t.table.getD (hash2bucket h t k) []) with
  | some b' =>
    obtain ⟨htab, hnum⟩ := insertPending_table_over hov
    have hkeys := overwriteList_some_map_key hov
    constructor
    · rw [hs1]; exact w.pow
    · rw [hs1, hs2, hs3]; exact w.sp_lt
    · rw [hs1, hs2, hs3, hlen]; exact w.len_eq
    · intro j e he
      rw [insertPending_addr h t k v e.key]
      rw [htab] at he
      by_cases hj : j = hash2bucket h t k
      · subst hj
        rw [getD_set_self _ hi _ _] at he
        have hkmem : e.key ∈ b'.map Entry.key := List.mem_map_of_mem Entry.key he
        rw [hkeys] at hkmem
        obtain ⟨e0, he0, hke⟩ := List.mem_map.mp hkmem
        rw [← hke]
        exact w.addr _ e0 he0
      · rw [getD_set_ne _ (fun hh => hj hh.symm) _ _] at he
        exact w.addr j e he
    · intro j
      rw [htab]
      by_cases hj : j = hash2bucket h t k
      · subst hj
        rw [getD_set_self _ hi _ _, hkeys]
        exact w.nodup _
      · rw [getD_set_ne _ (fun hh => hj hh.symm) _ _]
        exact w.nodup j
    · rw [hnum, htab, w.count]
      have hb'len : b'.length = (t.table.getD (hash2bucket h t k) []).length :=
        overwriteList_length hov
      have := sumLen_set t.table hi b'
      omega
  | none =>
    obtain ⟨htab, hnum⟩ := insertPending_table_app hov
    have hnok := (overwriteList_none_iff k v _).mp hov
    constructor
    · rw [hs1]; exact w.pow
    · rw [hs1, hs2, hs3]; exact w.sp_lt
    · rw [hs1, hs2, hs3, hlen]; exact w.len_eq
    · intro j e he
      rw [insertPending_addr h t k v e.key]
      rw [htab] at he
      by_cases hj : j = hash2bucket h t k
      · subst hj
        rw [getD_set_self _ hi _ _] at he
        rcases List.mem_append.mp he with hold | hnew
        · exact w.addr _ e hold
        · have : e = { key := k, value := v } := by simpa using hnew
          rw [this]
      · rw [getD_set_ne _ (fun hh => hj hh.symm) _ _] at he
        exact w.addr j e he
    · intro j
      rw [htab]
      by_cases hj : j = hash2bucket h t k
      · subst hj
        rw [getD_set_self _ hi _ _]
        rw [List.map_append]
        simp only [List.map_cons, List.map_nil]
        rw [List.nodup_append]
        refine ⟨w.nodup _, List.nodup_singleton _, ?_⟩
        intro a ha hb
        simp at hb
        subst hb
        obtain ⟨e0, he0, hke⟩ := List.mem_map.mp ha
        exact hnok e0 he0 hke
      · rw [getD_set_ne _ (fun hh => hj hh.symm) _ _]
        exact w.nodup j
    · rw [hnum, htab, w.count]
      have := sumLen_set t.table hi
        ((t.table.getD (hash2bucket h t k) []) ++ [{ key := k, value := v }])
      rw [List.length_append] at this
      simp only [List.length_singleton] at this
      omega

end LinearHash

lemma set_last_dropLast_perm {α : Type} (l : List α) {j : Nat} (hj : j < l.length) (d : α) :
    ((l.set j (l.getLastD d)).dropLast).Perm (l.eraseIdx j) := by
  have hid : List.take j l ++ l[j] :: List.drop (j + 1) l = l := by
    rw [List.getElem_cons_drop, List.take_append_drop]
  rw [List.set_eq_take_append_cons_drop, if_pos hj, List.eraseIdx_eq_take_drop_succ]
  rcases hdrop : List.drop (j + 1) l with _ | ⟨b0, B⟩
  · rw [List.dropLast_concat, List.append_nil]
  · have hne : b0 :: B ≠ [] := List.cons_ne_nil b0 B
    have hCz : (b0 :: B).dropLast ++ [(b0 :: B).getLast hne] = b0 :: B :=
      List.dropLast_append_getLast hne
    have h2 : l = (List.take j l ++ l[j] :: (b0 :: B).dropLast) ++
        [(b0 :: B).getLast hne] := by
      conv_lhs => rw [← hid, hdrop, ← hCz]
      rw [← List.cons_append, ← List.append_assoc]
    have hz : l.getLastD d = (b0 :: B).getLast hne := by
      conv_lhs => rw [h2]
      rw [List.getLastD_concat]
    rw [← hCz, hz]
    rw [← List.cons_append, ← List.append_assoc, List.dropLast_concat]
    exact List.Perm.append_left _
      ((List.perm_append_singleton ((b0 :: B).getLast hne) ((b0 :: B).dropLast)).symm)

lemma eraseIdx_no_key {l : Bucket} {j : Nat} (hj : j < l.length) {k : Nat}
    (hnd : (l.map Entry.key).Nodup) (hk : l[j].key = k) :
    ∀ e ∈ l.eraseIdx j, e.key ≠ k := by
  have hid : List.take j l ++ l[j] :: List.drop (j + 1) l = l := by
    rw [List.getElem_cons_drop, List.take_append_drop]
  have hnd2 : ((List.take j l ++ l[j] :: List.drop (j + 1) l).map Entry.key).Nodup := by
    rw [hid]
    exact hnd
  rw [List.map_append, List.map_cons, List.nodup_append] at hnd2
  obtain ⟨hnd_take, hnd_cons, hdisj⟩ := hnd2
  rw [List.nodup_cons] at hnd_cons
  intro e he hkey
  rw [List.eraseIdx_eq_take_drop_succ, List.mem_append] at he
  rcases he with h1 | h2
  · have : e.key ∈ (List.take j l).map Entry.key := List.mem_map_of_mem Entry.key h1
    rw [hkey, ← hk] at this
    exact hdisj this (List.mem_cons_self _ _)
  · have : e.key ∈ (List.drop (j + 1) l).map Entry.key := List.mem_map_of_mem Entry.key h2
    rw [hkey, ← hk] at this
    exact hnd_cons.1 this

lemma mem_eraseIdx_of_key_ne {l : Bucket} {j : Nat} (hj : j < l.length) {k : Nat}
    (hk : l[j].key = k) {e : Entry} (he : e ∈ l) (hne : e.key ≠ k) :
    e ∈ l.eraseIdx j := by
  have hid : List.take j l ++ l[j] :: List.drop (j + 1) l = l := by
    rw [List.getElem_cons_drop, List.take_append_drop]
  rw [← hid, List.mem_append, List.mem_cons] at he
  rw [List.eraseIdx_eq_take_drop_succ, List.mem_append]
  rcases he with h1 | h2 | h3
  · exact Or.inl h1
  · exact absurd (by rw [h2, hk]) hne
  · exact Or.inr h3

namespace LinearHash

lemma remove_scalars (h : Nat → Nat) (t : LinearHash) (k : Nat) :
    ((remove h t k).2).init_size = t.init_size ∧
      ((remove h t k).2).depth = t.depth ∧
      ((remove h t k).2).split_ptr = t.split_ptr := by
  cases hfi : (t.table.getD (hash2bucket h t k) []).findIdx? (fun e => e.key == k) <;>
    simp only [remove, hfi] <;> simp

lemma remove_addr (h : Nat → Nat) (t : LinearHash) (k k' : Nat) :
    hash2bucket h (remove h t k).2 k' = hash2bucket h t k' := by
  obtain ⟨h1, h2, h3⟩ := remove_scalars h t k
  exact hash2bucket_congr h t _ h1 h2 h3 k'

lemma remove_none_eq {h : Nat → Nat} {t : LinearHash} {k : Nat}
    (hfi : (t.table.getD (hash2bucket h t k) []).findIdx? (fun e => e.key == k) = none) :
    remove h t k = (false, t) := by
  simp only [remove, hfi]

lemma remove_some_table {h : Nat → Nat} {t : LinearHash} {k : Nat} {j : Nat}
    (hfi : (t.table.getD (hash2bucket h t k) []).findIdx? (fun e => e.key == k) = some j) :
    ((remove h t k).2).table =
      t.table.set (hash2bucket h t k)
        (((t.table.getD (hash2bucket h t k) []).set j
          ((t.table.getD (hash2bucket h t k) []).getLastD { key := 0, value := 0 })).dropLast) ∧
      ((remove h t k).2).num_elem = t.num_elem - 1 ∧ (remove h t k).1 = true := by
  simp only [remove, hfi]
  simp

lemma contains_false_iff_findIdx (h : Nat → Nat) (t : LinearHash) (k : Nat) :
    contains h t k = false ↔
      (t.table.getD (hash2bucket h t k) []).findIdx? (fun e => e.key == k) = none := by
  rw [List.findIdx?_eq_none_iff]
  simp [contains]

lemma get_remove_self {h : Nat → Nat} {t : LinearHash} (w : WF h t) (k : Nat) :
    get h (remove h t k).2 k = none := by
  have hi := wf_hash2bucket_lt_len w k
  cases hfi : (t.table.getD (hash2bucket h t k) []).findIdx? (fun e => e.key == k) with
  | none =>
    rw [remove_none_eq hfi]
    simp only [get]
    rw [find?_eq_none_of_no_key]
    · rfl
    · intro e he
      have := List.findIdx?_eq_none_iff.mp hfi e he
      simpa using this
  | some j =>
    obtain ⟨hj, hpj, hprev⟩ := List.findIdx?_eq_some_iff_getElem.mp hfi
    have hkj : (t.table.getD (hash2bucket h t k) [])[j].key = k := by simpa using hpj
    obtain ⟨htab, hnum, hret⟩ := remove_some_table hfi
    simp only [get]
    rw [remove_addr h t k k, htab, getD_set_self _ hi _ _]
    rw [find?_eq_none_of_no_key]
    · rfl
    · intro e he
      have hperm := set_last_dropLast_perm (t.table.getD (hash2bucket h t k) []) hj
        ({ key := 0, value := 0 } : Entry)
      have he' := hperm.mem_iff.mp he
      exact eraseIdx_no_key hj (w.nodup _) hkj e he'

lemma get_remove_ne {h : Nat → Nat} {t : LinearHash} (w : WF h t) {k k' : Nat}
    (hne : k' ≠ k) :
    get h (remove h t k).2 k' = get h t k' := by
  have hi := wf_hash2bucket_lt_len w k
  cases hfi : (t.table.getD (hash2bucket h t k) []).findIdx? (fun e => e.key == k) with
  | none =>
    rw [remove_none_eq hfi]
  | some j =>
    obtain ⟨hj, hpj, hprev⟩ := List.findIdx?_eq_some_iff_getElem.mp hfi
    have hkj : (t.table.getD (hash2bucket h t k) [])[j].key = k := by simpa using hpj
    obtain ⟨htab, hnum, hret⟩ := remove_some_table hfi
    simp only [get]
    rw [remove_addr h t k k', htab]
    by_cases hidx : hash2bucket h t k' = hash2bucket h t k
    · rw [hidx, getD_set_self _ hi _ _]
      have hperm := set_last_dropLast_perm (t.table.getD (hash2bucket h t k) []) hj
        ({ key := 0, value := 0 } : Entry)
      have hndb : ((t.table.getD (hash2bucket h t k) []).map Entry.key).Nodup :=
        w.nodup _
      have hndb' :
          ((((t.table.getD (hash2bucket h t k) []).set j
            ((t.table.getD (hash2bucket h t k) []).getLastD
              { key := 0, value := 0 })).dropLast).map Entry.key).Nodup := by
        refine ((hperm.map Entry.key).nodup_iff).mpr ?_
        exact ((List.eraseIdx_sublist _ j).map Entry.key).nodup hndb
      cases hf2 : (t.table.getD (hash2bucket h t k) []).find? (fun e => e.key == k') with
      | none =>
        rw [List.find?_eq_none] at hf2
        rw [find?_eq_none_of_no_key]
        intro e he
        have he' := hperm.mem_iff.mp he
        have hmem : e ∈ t.table.getD (hash2bucket h t k) [] :=
          (List.eraseIdx_sublist _ j).subset he'
        have := hf2 e hmem
        simpa using this
      | some e =>
        have hprop : e.key = k' := by
          have := List.find?_some hf2
          simpa using this
        have hmem : e ∈ t.table.getD (hash2bucket h t k) [] :=
          List.mem_of_find?_eq_some hf2
        have hmem' : e ∈ (t.table.getD (hash2bucket h t k) []).eraseIdx j :=
          mem_eraseIdx_of_key_ne hj hkj hmem (by rw [hprop]; exact hne)
        exact congrArg (Option.map Entry.value)
          (find?_eq_some_of_key_mem hndb' (hperm.mem_iff.mpr hmem') hprop)
    · rw [getD_set_ne _ (fun hh => hidx hh.symm) _ _]

lemma wf_remove {h : Nat → Nat} {t : LinearHash} (w : WF h t) (k : Nat) :
    WF h (remove h t k).2 := by
  have hi := wf_hash2bucket_lt_len w k
  cases hfi : (t.table.getD (hash2bucket h t k) []).findIdx? (fun e => e.key == k) with
  | none =>
    rw [remove_none_eq hfi]
    exact w
  | some j =>
    obtain ⟨hj, hpj, hprev⟩ := List.findIdx?_eq_some_iff_getElem.mp hfi
    obtain ⟨htab, hnum, hret⟩ := remove_some_table hfi
    obtain ⟨hs1, hs2, hs3⟩ := remove_scalars h t k
    have hperm := set_last_dropLast_perm (t.table.getD (hash2bucket h t k) []) hj
      ({ key := 0, value := 0 } : Entry)
    constructor
    · rw [hs1]
      exact w.pow
    · rw [hs1, hs2, hs3]
      exact w.sp_lt
    · rw [hs1, hs2, hs3, htab, List.length_set]
      exact w.len_eq
    · intro j' e he
      rw [remove_addr h t k e.key]
      rw [htab] at he
      by_cases hj' : j' = hash2bucket h t k
      · subst hj'
        rw [getD_set_self _ hi _ _] at he
        have he' := hperm.mem_iff.mp he
        have hmem : e ∈ t.table.getD (hash2bucket h t k) [] :=
          (List.eraseIdx_sublist _ j).subset he'
        exact w.addr _ e hmem
      · rw [getD_set_ne _ (fun hh => hj' hh.symm) _ _] at he
        exact w.addr j' e he
    · intro j'
      rw [htab]
      by_cases hj' : j' = hash2bucket h t k
      · subst hj'
        rw [getD_set_self _ hi _ _]
        refine ((hperm.map Entry.key).nodup_iff).mpr ?_
        exact ((List.eraseIdx_sublist _ j).map Entry.key).nodup (w.nodup _)
      · rw [getD_set_ne _ (fun hh => hj' hh.symm) _ _]
        exact w.nodup j'
    · rw [hnum, htab, w.count]
      have hlen' := hperm.length_eq
      rw [List.length_eraseIdx, if_pos hj] at hlen'
      have hset := sumLen_set t.table hi
        (((t.table.getD (hash2bucket h t k) []).set j
          ((t.table.getD (hash2bucket h t k) []).getLastD { key := 0, value := 0 })).dropLast)
      have hble := getD_length_le_sumLen t.table (hash2bucket h t k)
      omega

end LinearHash

namespace LinearHash

lemma wf_insert {h : Nat → Nat} {t : LinearHash} (w : WF h t) (k v : Nat) :
    WF h (insert h t k v) := by
  rcases insert_eq_pending_or_split h t k v with he | he <;> rw [he]
  · exact wf_insertPending w k v
  · exact wf_splitStep (wf_insertPending w k v)

lemma get_insert_self {h : Nat → Nat} {t : LinearHash} (w : WF h t) (k v : Nat) :
    get h (insert h t k v) k = some v := by
  rcases insert_eq_pending_or_split h t k v with he | he <;> rw [he]
  · exact get_insertPending_self w k v
  · have wp := wf_insertPending w k v
    obtain ⟨m, hm⟩ := wp.Lpow
    have hsp : (insertPending h t k v).split_ptr < 2 ^ m := by
      rw [← hm]
      exact wp.sp_lt
    have hlen : (insertPending h t k v).table.length =
        2 ^ m + (insertPending h t k v).split_ptr := by
      rw [wp.len_eq, hm]
    rw [get_splitStep hm hsp hlen k]
    exact get_insertPending_self w k v

lemma get_insert_ne {h : Nat → Nat} {t : LinearHash} (w : WF h t) {k k' : Nat}
    (hne : k' ≠ k) (v : Nat) :
    get h (insert h t k v) k' = get h t k' := by
  rcases insert_eq_pending_or_split h t k v with he | he <;> rw [he]
  · exact get_insertPending_ne w hne v
  · have wp := wf_insertPending w k v
    obtain ⟨m, hm⟩ := wp.Lpow
    have hsp : (insertPending h t k v).split_ptr < 2 ^ m := by
      rw [← hm]
      exact wp.sp_lt
    have hlen : (insertPending h t k v).table.length =
        2 ^ m + (insertPending h t k v).split_ptr := by
      rw [wp.len_eq, hm]
    rw [get_splitStep hm hsp hlen k']
    exact get_insertPending_ne w hne v

lemma make_some_fields {size : Nat} {lf : ℚ} {t : LinearHash}
    (hmk : make size lf = some t) :
    t.table = List.replicate size [] ∧ t.max_load_factor = lf ∧ t.num_elem = 0 ∧
      t.split_ptr = 0 ∧ t.init_size = size ∧ t.depth = 0 := by
  unfold make at hmk
  split at hmk
  · exact absurd hmk (by simp)
  · rw [Option.some.injEq] at hmk
    subst hmk
    simp

lemma make_some_cond {size : Nat} {lf : ℚ} {t : LinearHash}
    (hmk : make size lf = some t) : size ≠ 0 ∧ size &&& (size - 1) = 0 := by
  unfold make at hmk
  split at hmk
  · exact absurd hmk (by simp)
  · rename_i hcond
    simpa using hcond

lemma getD_replicate_nil (size i : Nat) :
    (List.replicate size ([] : Bucket)).getD i [] = [] := by
  induction size generalizing i with
  | zero => simp [List.getD]
  | succ n ih =>
    cases i with
    | zero => simp [List.replicate]
    | succ i =>
      simp only [List.replicate, List.getD_cons_succ]
      exact ih i

lemma sumLen_replicate_nil (size : Nat) :
    sumLen (List.replicate size []) = 0 := by
  induction size with
  | zero => rfl
  | succ n ih =>
    simp only [List.replicate, sumLen_cons, List.length_nil, Nat.zero_add]
    exact ih

lemma wf_make {h : Nat → Nat} {size : Nat} {lf : ℚ} {t : LinearHash}
    (hmk : make size lf = some t) : WF h t := by
  obtain ⟨htab, hlf, hnum, hsp, hsz, hd⟩ := make_some_fields hmk
  obtain ⟨hnz, hand⟩ := make_some_cond hmk
  have hszpos : 0 < size := Nat.pos_of_ne_zero hnz
  constructor
  · rw [hsz]
    exact exists_pow_of_and_pred hnz hand
  · rw [hsz, hsp, hd, Nat.shiftLeft_eq]
    simpa using hszpos
  · rw [hsz, hsp, hd, htab, Nat.shiftLeft_eq]
    simp
  · intro i e he
    rw [htab, getD_replicate_nil] at he
    cases he
  · intro i
    rw [htab, getD_replicate_nil]
    simp
  · rw [hnum, htab, sumLen_replicate_nil]

lemma get_make_empty {h : Nat → Nat} {size : Nat} {lf : ℚ} {t : LinearHash}
    (hmk : make size lf = some t) (q : Nat) : get h t q = none := by
  obtain ⟨htab, _⟩ := make_some_fields hmk
  simp only [get]
  rw [htab, getD_replicate_nil]
  rfl

lemma make_eq_none_iff (size : Nat) (lf : ℚ) :
    make size lf = none ↔ (size = 0 ∨ ¬ ∃ j, size = 2 ^ j) := by
  unfold make
  split
  · rename_i hc
    simp only [Bool.or_eq_true, beq_iff_eq, bne_iff_ne, ne_eq] at hc
    simp only [true_iff]
    rcases hc with hc | hc
    · exact Or.inl hc
    · refine Or.inr ?_
      rintro ⟨j, rfl⟩
      exact hc (pow_and_pred j)
  · rename_i hc
    simp only [Bool.or_eq_true, beq_iff_eq, bne_iff_ne, ne_eq, not_or, not_not] at hc
    simp only [reduceCtorEq, false_iff, not_or, not_not]
    exact ⟨hc.1, exists_pow_of_and_pred hc.1 hc.2⟩

end LinearHash

lemma wf_applyOp {h : Nat → Nat} {t : LinearHash} (w : LinearHash.WF h t) (op : Op) :
    LinearHash.WF h (applyOp h t op) := by
  cases op with
  | ins k v => exact LinearHash.wf_insert w k v
  | rem k => exact LinearHash.wf_remove w k

lemma wf_run {h : Nat → Nat} {t : LinearHash} (w : LinearHash.WF h t) (ops : List Op) :
    LinearHash.WF h (run h t ops) := by
  induction ops generalizing t with
  | nil => exact w
  | cons op ops ih => exact ih (wf_applyOp w op)

lemma run_append_singleton (h : Nat → Nat) (t : LinearHash) (ops : List Op) (op : Op) :
    run h t (ops ++ [op]) = applyOp h (run h t ops) op := by
  simp [run, List.foldl_append]

lemma lastWrite_append (ops : List Op) (op : Op) (k : Nat) :
    lastWrite (ops ++ [op]) k =
      match opEffect k op with
      | some r => r
      | none => lastWrite ops k := by
  simp only [lastWrite, List.reverse_append, List.reverse_singleton, List.singleton_append,
    List.findSome?_cons]
  cases heff : opEffect k op with
  | none => rfl
  | some r => rfl

lemma get_run {h : Nat → Nat} {t : LinearHash} (w : LinearHash.WF h t)
    (hempty : ∀ q, LinearHash.get h t q = none) (ops : List Op) (q : Nat) :
    LinearHash.get h (run h t ops) q = lastWrite ops q := by
  induction ops using List.reverseRecOn with
  | nil =>
    simp only [run, List.foldl_nil, lastWrite, List.reverse_nil, List.findSome?_nil,
      Option.getD_none]
    exact hempty q
  | append_singleton ops op ih =>
    rw [run_append_singleton, lastWrite_append]
    have wr : LinearHash.WF h (run h t ops) := wf_run w ops
    cases op with
    | ins k v =>
      by_cases hq : k = q
      · subst hq
        simp only [applyOp, opEffect, if_pos rfl]
        exact LinearHash.get_insert_self wr k v
      · simp only [applyOp, opEffect, if_neg hq]
        rw [LinearHash.get_insert_ne wr (fun hh => hq hh.symm) v]
        exact ih
    | rem k =>
      by_cases hq : k = q
      · subst hq
        simp only [applyOp, opEffect, if_pos rfl]
        exact LinearHash.get_remove_self wr k
      · simp only [applyOp, opEffect, if_neg hq]
        rw [LinearHash.get_remove_ne wr (fun hh => hq hh.symm)]
        exact ih

namespace LinearHash

lemma getD_eq_getElem_of_lt {α : Type} (l : List α) {i : Nat} (hi : i < l.length) (d : α) :
    l.getD i d = l[i] := by
  rw [List.getD_eq_getElem?_getD, List.getElem?_eq_getElem hi]
  rfl

lemma flatten_drop_cons {tbl : List Bucket} {g : Nat} (hg : g < tbl.length) :
    (tbl.drop g).flatten = tbl.getD g [] ++ (tbl.drop (g + 1)).flatten := by
  rw [← List.getElem_cons_drop tbl g hg, List.flatten_cons, getD_eq_getElem_of_lt _ hg]

lemma go2data_props (tbl : List Bucket) (b : Nat) :
    b ≤ go2data tbl b ∧
      (go2data tbl b < tbl.length → (tbl.getD (go2data tbl b) []).isEmpty = false) ∧
      (tbl.drop (go2data tbl b)).flatten = (tbl.drop b).flatten ∧
      (b ≤ tbl.length → go2data tbl b ≤ tbl.length) := by
  unfold go2data
  split
  · rename_i hb
    split
    · rename_i hemp
      obtain ⟨ih1, ih2, ih3, ih4⟩ := go2data_props tbl (b + 1)
      refine ⟨by omega, ih2, ?_, fun _ => ih4 (by omega)⟩
      rw [ih3, flatten_drop_cons hb]
      have hnil : tbl.getD b [] = [] := by
        rw [getD_eq_getElem_of_lt _ hb]
        exact List.isEmpty_iff.mp hemp
      rw [hnil]
      rfl
    · rename_i hemp
      refine ⟨Nat.le_refl b, fun _ => ?_, rfl, fun _ => by omega⟩
      rw [getD_eq_getElem_of_lt _ hb]
      simpa using hemp
  · rename_i hb
    exact ⟨Nat.le_refl b, fun hlt => absurd hlt hb, rfl, fun hle => hle⟩
termination_by tbl.length - b

lemma go2data_eq_self {tbl : List Bucket} {b : Nat} (hb : b < tbl.length)
    (hne : (tbl.getD b []).isEmpty = false) : go2data tbl b = b := by
  unfold go2data
  rw [dif_pos hb, if_neg]
  rw [getD_eq_getElem_of_lt _ hb] at hne
  simp only [List.get_eq_getElem]
  simp [hne]

lemma iterCollect_end (tbl : List Bucket) (fuel b e : Nat) (hb : ¬ b < tbl.length) :
    iterCollect tbl fuel { bucket_idx := b, entry_idx := e } = [] := by
  cases fuel with
  | zero => rfl
  | succ f =>
    unfold iterCollect
    rw [if_neg hb]

lemma iterCollect_valid (tbl : List Bucket) (fuel : Nat) :
    ∀ (b e : Nat), b < tbl.length → e < (tbl.getD b []).length →
      ((tbl.getD b []).length - e) + ((tbl.drop (b + 1)).flatten).length ≤ fuel →
      iterCollect tbl fuel { bucket_idx := b, entry_idx := e } =
        ((tbl.getD b []).drop e) ++ (tbl.drop (b + 1)).flatten := by
  induction fuel with
  | zero =>
    intro b e hb he hfuel
    omega
  | succ f ih =>
    intro b e hb he hfuel
    have hsome : (tbl.getD b [])[e]? = some (tbl.getD b [])[e] := List.getElem?_eq_getElem he
    unfold iterCollect
    rw [if_pos hb]
    simp only [hsome]
    by_cases hov : e + 1 ≥ (tbl.getD b []).length
    · have hnext : iterNext tbl { bucket_idx := b, entry_idx := e } =
          { bucket_idx := go2data tbl (b + 1), entry_idx := 0 } := by
        simp only [iterNext, ge_iff_le]
        rw [if_pos (by omega)]
      rw [hnext]
      obtain ⟨hge, hne, hfl, hle⟩ := go2data_props tbl (b + 1)
      have hdropbucket : (tbl.getD b []).drop e = [(tbl.getD b [])[e]] := by
        have hstep : (tbl.getD b []).drop e =
            (tbl.getD b [])[e] :: (tbl.getD b []).drop (e + 1) :=
          (List.getElem_cons_drop _ e he).symm
        rw [hstep, List.drop_eq_nil_of_le (by omega)]
      by_cases hg : go2data tbl (b + 1) < tbl.length
      · have hb0 : 0 < (tbl.getD (go2data tbl (b + 1)) []).length := by
          have hne' := hne hg
          rw [List.isEmpty_eq_false] at hne'
          exact List.length_pos.mpr hne'
        have hflg : (tbl.drop (go2data tbl (b + 1))).flatten =
            tbl.getD (go2data tbl (b + 1)) [] ++
              (tbl.drop (go2data tbl (b + 1) + 1)).flatten := flatten_drop_cons hg
        have hfuel' : ((tbl.getD (go2data tbl (b + 1)) []).length - 0) +
            ((tbl.drop (go2data tbl (b + 1) + 1)).flatten).length ≤ f := by
          have hlen1 : ((tbl.drop (go2data tbl (b + 1))).flatten).length =
              ((tbl.drop (b + 1)).flatten).length := by rw [hfl]
          rw [hflg, List.length_append] at hlen1
          omega
        rw [ih (go2data tbl (b + 1)) 0 hg hb0 hfuel']
        rw [List.drop_zero, hdropbucket, ← hfl, hflg, List.singleton_append]
      · rw [iterCollect_end tbl f _ 0 hg]
        have hdg : tbl.drop (go2data tbl (b + 1)) = [] := by
          have hlen' : tbl.length ≤ go2data tbl (b + 1) := by omega
          exact List.drop_eq_nil_of_le hlen'
        have hrest : (tbl.drop (b + 1)).flatten = [] := by
          rw [← hfl, hdg]
          rfl
        rw [hdropbucket, hrest]
        rfl
    · have hnebucket : (tbl.getD b []).isEmpty = false := by
        rw [List.isEmpty_eq_false, ← List.length_pos]
        omega
      have hnext : iterNext tbl { bucket_idx := b, entry_idx := e } =
          { bucket_idx := b, entry_idx := e + 1 } := by
        simp only [iterNext, ge_iff_le]
        rw [if_neg (by omega), go2data_eq_self hb hnebucket]
      rw [hnext]
      rw [ih b (e + 1) hb (by omega) (by omega)]
      rw [← List.getElem_cons_drop (tbl.getD b []) e he, List.cons_append]

lemma iterBegin_eq (tbl : List Bucket) :
    iterBegin tbl = { bucket_idx := go2data tbl 0, entry_idx := 0 } := by
  unfold iterBegin iterInit
  split
  · rfl
  · rename_i hc
    rw [Decidable.not_and_iff_or_not] at hc
    rcases hc with hc | hc
    · have hlen : tbl.length = 0 := by omega
      have : go2data tbl 0 = 0 := by
        unfold go2data
        rw [dif_neg (by omega)]
      rw [this]
    · have hlen : 0 < tbl.length := by
        by_cases hl : 0 < tbl.length
        · exact hl
        · exfalso
          have hlen0 : tbl.length = 0 := by omega
          have : tbl = [] := List.length_eq_zero.mp hlen0
          subst this
          simp [List.getD] at hc
      have : go2data tbl 0 = 0 :=
        go2data_eq_self hlen (by simpa using hc)
      rw [this]

lemma iterEnd_eq (tbl : List Bucket) :
    iterEnd tbl = { bucket_idx := tbl.length, entry_idx := 0 } := by
  unfold iterEnd iterInit
  rw [if_neg]
  intro hc
  omega

lemma iterTraverse_eq_flatten (tbl : List Bucket) : iterTraverse tbl = tbl.flatten := by
  unfold iterTraverse
  rw [iterBegin_eq]
  obtain ⟨hge, hne, hfl, hle⟩ := go2data_props tbl 0
  by_cases hg : go2data tbl 0 < tbl.length
  · have hb0 : 0 < (tbl.getD (go2data tbl 0) []).length := by
      have hne' := hne hg
      rw [List.isEmpty_eq_false] at hne'
      exact List.length_pos.mpr hne'
    have hflg := flatten_drop_cons hg
    have hfuel : ((tbl.getD (go2data tbl 0) []).length - 0) +
        ((tbl.drop (go2data tbl 0 + 1)).flatten).length ≤ iterFuel tbl := by
      have h0 := hfl
      rw [List.drop_zero] at h0
      have hlen1 : (tbl.getD (go2data tbl 0) []).length +
          ((tbl.drop (go2data tbl 0 + 1)).flatten).length = tbl.flatten.length := by
        rw [← h0, hflg, List.length_append]
      have hsum : tbl.flatten.length = (List.map List.length tbl).sum :=
        List.length_flatten tbl
      unfold iterFuel
      omega
    rw [iterCollect_valid tbl (iterFuel tbl) (go2data tbl 0) 0 hg hb0 hfuel]
    rw [List.drop_zero, ← hflg, hfl, List.drop_zero]
  · rw [iterCollect_end tbl _ _ 0 hg]
    have hdg : tbl.drop (go2data tbl 0) = [] := by
      have hlen' : tbl.length ≤ go2data tbl 0 := by omega
      exact List.drop_eq_nil_of_le hlen'
    have : tbl.flatten = [] := by
      have h0 := hfl
      rw [hdg, List.drop_zero] at h0
      exact h0.symm
    rw [this]

lemma iterBegin_eq_end_iff (tbl : List Bucket) :
    iterBegin tbl = iterEnd tbl ↔ tbl.flatten = [] := by
  rw [iterBegin_eq, iterEnd_eq]
  obtain ⟨hge, hne, hfl, hle⟩ := go2data_props tbl 0
  constructor
  · intro heq
    rw [Iterator.mk.injEq] at heq
    have hg : go2data tbl 0 = tbl.length := heq.1
    have hdg : tbl.drop (go2data tbl 0) = [] := by
      rw [hg]
      exact List.drop_eq_nil_of_le (Nat.le_refl _)
    have h0 := hfl
    rw [hdg, List.drop_zero] at h0
    exact h0.symm
  · intro hflat
    rw [Iterator.mk.injEq]
    refine ⟨?_, rfl⟩
    by_cases hg : go2data tbl 0 < tbl.length
    · exfalso
      have hne' := hne hg
      rw [List.isEmpty_eq_false] at hne'
      have hflg := flatten_drop_cons hg
      have h0 := hfl
      rw [List.drop_zero, hflat] at h0
      rw [h0] at hflg
      have : tbl.getD (go2data tbl 0) [] = [] := by
        rcases List.append_eq_nil.mp hflg.symm with ⟨h1, _⟩
        exact h1
      exact hne' this
    · have := hle (Nat.zero_le _)
      omega

end LinearHash

namespace LinearHash

lemma should_split_iff_load (t : LinearHash) :
    should_split t = true ↔
      t.table ≠ [] ∧ (t.num_elem : ℚ) / (t.table.length : ℚ) > t.max_load_factor := by
  unfold should_split
  by_cases he : t.table.isEmpty
  · rw [if_pos he]
    have hnil : t.table = [] := List.isEmpty_iff.mp he
    simp [hnil]
  · rw [if_neg he]
    have hne : t.table ≠ [] := by
      rw [← List.isEmpty_eq_false]
      simpa using he
    have hlen : (0:ℚ) < (t.table.length : ℚ) := by
      have := List.length_pos.mpr hne
      exact_mod_cast this
    have hden : (0:ℚ) < (t.max_load_factor.den : ℚ) := by
      exact_mod_cast Rat.den_pos t.max_load_factor
    have hnum : (t.max_load_factor.num : ℚ) =
        t.max_load_factor * (t.max_load_factor.den : ℚ) := by
      have h0 := Rat.num_div_den t.max_load_factor
      rw [div_eq_iff (ne_of_gt hden)] at h0
      exact h0
    simp only [decide_eq_true_eq, hne, ne_eq, not_false_eq_true, true_and, gt_iff_lt]
    rw [lt_div_iff₀ hlen, ← mul_lt_mul_right hden, mul_right_comm, ← hnum]
    constructor <;> intro hh <;> exact_mod_cast hh

lemma set_getD_self {α : Type} (l : List α) : ∀ (i : Nat), i < l.length → ∀ (d : α),
    l.set i (l.getD i d) = l := by
  induction l with
  | nil =>
    intro i hi
    simp at hi
  | cons a as ih =>
    intro i hi d
    cases i with
    | zero => simp
    | succ i =>
      simp only [List.getD_cons_succ, List.set_cons_succ, List.cons.injEq, true_and]
      exact ih i (by simpa using hi) d

lemma splitStep_length_any (h : Nat → Nat) (t : LinearHash) :
    (splitStep h t).table.length = t.table.length + 1 := by
  simp only [splitStep]
  split <;> simp

lemma insert_over_eq {h : Nat → Nat} {t : LinearHash} {k v : Nat} {b' : Bucket}
    (hov : overwriteList k v (t.table.getD (hash2bucket h t k) []) = some b') :
    insert h t k v = { t with table := t.table.set (hash2bucket h t k) b' } := by
  simp only [insert, hov]

lemma insert_append_eq {h : Nat → Nat} {t : LinearHash} {k v : Nat}
    (hov : overwriteList k v (t.table.getD (hash2bucket h t k) []) = none) :
    insert h t k v =
      (if (insertPending h t k v).should_split then splitStep h (insertPending h t k v)
       else insertPending h t k v) := by
  simp only [insert, insertPending, hov]

lemma contains_eq_overwrite_isSome (h : Nat → Nat) (t : LinearHash) (k v : Nat) :
    contains h t k = (overwriteList k v (t.table.getD (hash2bucket h t k) [])).isSome := by
  cases hov : overwriteList k v (t.table.getD (hash2bucket h t k) []) with
  | none =>
    have hnone := (overwriteList_none_iff k v _).mp hov
    simp only [Option.isSome_none, contains]
    rw [List.any_eq_false]
    intro e he
    simpa using hnone e he
  | some b' =>
    simp only [Option.isSome_some, contains]
    have hns : ¬ overwriteList k v (t.table.getD (hash2bucket h t k) []) = none := by
      rw [hov]
      simp
    rw [overwriteList_none_iff] at hns
    push_neg at hns
    obtain ⟨e, he, hke⟩ := hns
    rw [List.any_eq_true]
    exact ⟨e, he, by simpa using hke⟩

lemma insert_length_cases (h : Nat → Nat) (t : LinearHash) (k v : Nat) :
    ((insert h t k v).table.length = t.table.length ∨
      (insert h t k v).table.length = t.table.length + 1) ∧
      ((insert h t k v).table.length = t.table.length + 1 ↔
        (contains h t k = false ∧ (insertPending h t k v).should_split = true)) := by
  have hcon := contains_eq_overwrite_isSome h t k v
  cases hov : overwriteList k v (t.table.getD (hash2bucket h t k) []) with
  | some b' =>
    rw [insert_over_eq hov]
    rw [hov] at hcon
    simp only [Option.isSome_some] at hcon
    constructor
    · left
      simp
    · constructor
      · intro hl
        simp only [List.length_set] at hl
        omega
      · rintro ⟨hc, _⟩
        rw [hcon] at hc
        cases hc
  | none =>
    rw [insert_append_eq hov]
    rw [hov] at hcon
    simp only [Option.isSome_none] at hcon
    have hplen := insertPending_length h t k v
    by_cases hs : (insertPending h t k v).should_split
    · rw [if_pos hs]
      rw [splitStep_length_any, hplen]
      exact ⟨Or.inr rfl, by simp [hcon, hs]⟩
    · rw [if_neg hs]
      refine ⟨Or.inl hplen, ?_⟩
      constructor
      · intro hl
        rw [hplen] at hl
        omega
      · rintro ⟨_, hs'⟩
        exact absurd hs' (by simpa using hs)

/-- `make 2 (3/4)` succeeds and yields the example state. -/
lemma make_t0ex : make 2 (mkRat 3 4) = some t0ex := by decide

/-- `make 2 (1/2)` succeeds and yields the example state. -/
lemma make_t0half : make 2 (mkRat 1 2) = some t0half := by decide

lemma wf_t0ex : WF id t0ex := wf_make make_t0ex

lemma wf_tex1 : WF id tex1 := by
  unfold tex1
  exact wf_insert wf_t0ex 1 10

end LinearHash

/-! ## Claim theorems -/

namespace LinearHash

/-- C1: for every sequence of insert/remove operations starting from a freshly
constructed table, `get(k)` returns the value of the last `insert(k, v)` not
followed by a `remove(k)` (splits included — they happen inside `insert`), and
`none` (absent) when `k` was never inserted or was last removed. -/
theorem get_returns_last_write (h : Nat → Nat) (sz : Nat) (lf : ℚ) (t0 : LinearHash)
    (hmk : make sz lf = some t0) (ops : List Op) (k : Nat) :
    get h (run h t0 ops) k = lastWrite ops k :=
  get_run (wf_make hmk) (get_make_empty hmk) ops k

theorem get_returns_last_write_witness :
    make 2 (mkRat 3 4) = some t0ex ∧
      get id (run id t0ex [Op.ins 1 10, Op.ins 2 20, Op.ins 1 30, Op.rem 2]) 1 =
        lastWrite [Op.ins 1 10, Op.ins 2 20, Op.ins 1 30, Op.rem 2] 1 :=
  ⟨make_t0ex,
    get_returns_last_write id 2 (mkRat 3 4) t0ex make_t0ex
      [Op.ins 1 10, Op.ins 2 20, Op.ins 1 30, Op.rem 2] 1⟩

/-- C2: at every quiescent point of a run from a fresh table, every live entry
with key `k` resides in exactly bucket `hash2bucket k` under the current
`(init_size, depth, split_ptr)`, no key appears in more than one bucket, no key
appears twice within a bucket; and a split step restores placement for all
keys of a well-formed table. -/
theorem placement_and_uniqueness_invariant (h : Nat → Nat) (sz : Nat) (lf : ℚ)
    (t0 : LinearHash) (hmk : make sz lf = some t0) (ops : List Op) :
    (∀ i, i < (run h t0 ops).table.length →
      ∀ e ∈ (run h t0 ops).table.getD i [], hash2bucket h (run h t0 ops) e.key = i) ∧
      (∀ i j, ∀ e ∈ (run h t0 ops).table.getD i [],
        ∀ e' ∈ (run h t0 ops).table.getD j [], e.key = e'.key → i = j) ∧
      (∀ i, (((run h t0 ops).table.getD i []).map Entry.key).Nodup) ∧
      (∀ u, WF h u → ∀ i, ∀ e ∈ (splitStep h u).table.getD i [],
        hash2bucket h (splitStep h u) e.key = i) := by
  have w : WF h (run h t0 ops) := wf_run (wf_make hmk) ops
  refine ⟨fun i _ e he => w.addr i e he, ?_, w.nodup,
    fun u wu => (wf_splitStep wu).addr⟩
  intro i j e he e' he' hk
  have h1 := w.addr i e he
  have h2 := w.addr j e' he'
  rw [← h1, ← h2, hk]

theorem placement_and_uniqueness_invariant_witness :
    make 2 (mkRat 3 4) = some t0ex ∧
      (∀ i, i < (run id t0ex [Op.ins 1 10, Op.ins 2 20, Op.ins 3 30]).table.length →
        ∀ e ∈ (run id t0ex [Op.ins 1 10, Op.ins 2 20, Op.ins 3 30]).table.getD i [],
          hash2bucket id (run id t0ex [Op.ins 1 10, Op.ins 2 20, Op.ins 3 30]) e.key = i) :=
  ⟨make_t0ex,
    (placement_and_uniqueness_invariant id 2 (mkRat 3 4) t0ex make_t0ex
      [Op.ins 1 10, Op.ins 2 20, Op.ins 3 30]).1⟩

/-- C3: the addressing function is pure in
`(h(k), init_size, depth, split_ptr)` — it equals `addrSpec` applied to exactly
those data — and `addrSpec` is the spec formula: with `L = init_size << depth`
and `i0 = h(k) & (L-1)`, the result is `h(k) & (((L-1) << 1) | 1)` when
`i0 < split_ptr` and `i0` otherwise.  (The code writes the wide mask as
`(mask << 1) + 1`, which coincides with `(mask << 1) | 1` because the shifted
mask is even.) -/
theorem hash2bucket_pure_addrSpec (h : Nat → Nat) (t : LinearHash) (k : Nat) :
    hash2bucket h t k = addrSpec (h k) (t.init_size <<< t.depth) t.split_ptr := by
  have hor : ∀ a : Nat, (a <<< 1) ||| 1 = (a <<< 1) + 1 := by
    intro a
    rw [Nat.shiftLeft_eq, Nat.pow_one, Nat.mul_comm]
    exact two_mul_or_one a
  simp only [hash2bucket, addrSpec, hor]

/-- C4: from a table constructed with `(2, 0.5)`: `insert(1,1)` gives capacity 2
and split pointer 0; `insert(2,2)` gives capacity 3 and split pointer 1;
`insert(3,3)` gives capacity 4 and split pointer 0 with depth advanced to 1.
In general a single insert appends at most one bucket, and it appends exactly
one iff the key was new and the post-insert load exceeded `max_load_factor` —
one split step is attempted exactly then. -/
theorem incremental_split_scenario :
    (∃ t0, make 2 (mkRat 1 2) = some t0 ∧
      (insert id t0 1 1).table.length = 2 ∧ (insert id t0 1 1).split_ptr = 0 ∧
      (insert id (insert id t0 1 1) 2 2).table.length = 3 ∧
      (insert id (insert id t0 1 1) 2 2).split_ptr = 1 ∧
      (insert id (insert id (insert id t0 1 1) 2 2) 3 3).table.length = 4 ∧
      (insert id (insert id (insert id t0 1 1) 2 2) 3 3).split_ptr = 0 ∧
      (insert id (insert id (insert id t0 1 1) 2 2) 3 3).depth = 1) ∧
    (∀ (h : Nat → Nat) (t : LinearHash) (k v : Nat),
      ((insert h t k v).table.length = t.table.length ∨
        (insert h t k v).table.length = t.table.length + 1) ∧
      ((insert h t k v).table.length = t.table.length + 1 ↔
        (contains h t k = false ∧ (insertPending h t k v).table ≠ [] ∧
          ((insertPending h t k v).num_elem : ℚ) /
              ((insertPending h t k v).table.length : ℚ) >
            (insertPending h t k v).max_load_factor))) := by
  constructor
  · exact ⟨t0half, make_t0half, by decide, by decide, by decide, by decide,
      by decide, by decide, by decide⟩
  · intro h t k v
    refine ⟨(insert_length_cases h t k v).1, ?_⟩
    rw [(insert_length_cases h t k v).2, should_split_iff_load]

/-- C5: at every quiescent point of a run from a fresh table,
`table.length = (init_size << depth) + split_ptr` and
`split_ptr < init_size << depth`; and every split step of a well-formed table
preserves both, including the wrap that resets the split pointer and
increments the depth. -/
theorem table_length_invariant (h : Nat → Nat) (sz : Nat) (lf : ℚ)
    (t0 : LinearHash) (hmk : make sz lf = some t0) (ops : List Op) :
    ((run h t0 ops).table.length =
      ((run h t0 ops).init_size <<< (run h t0 ops).depth) + (run h t0 ops).split_ptr ∧
      (run h t0 ops).split_ptr < (run h t0 ops).init_size <<< (run h t0 ops).depth) ∧
    (∀ u, WF h u →
      (splitStep h u).table.length =
        ((splitStep h u).init_size <<< (splitStep h u).depth) + (splitStep h u).split_ptr ∧
      (splitStep h u).split_ptr < (splitStep h u).init_size <<< (splitStep h u).depth) := by
  have w : WF h (run h t0 ops) := wf_run (wf_make hmk) ops
  exact ⟨⟨w.len_eq, w.sp_lt⟩,
    fun u wu => ⟨(wf_splitStep wu).len_eq, (wf_splitStep wu).sp_lt⟩⟩

theorem table_length_invariant_witness :
    make 2 (mkRat 3 4) = some t0ex ∧
      ((run id t0ex [Op.ins 1 10, Op.ins 2 20, Op.ins 3 30]).table.length =
        ((run id t0ex [Op.ins 1 10, Op.ins 2 20, Op.ins 3 30]).init_size <<<
          (run id t0ex [Op.ins 1 10, Op.ins 2 20, Op.ins 3 30]).depth) +
          (run id t0ex [Op.ins 1 10, Op.ins 2 20, Op.ins 3 30]).split_ptr ∧
        (run id t0ex [Op.ins 1 10, Op.ins 2 20, Op.ins 3 30]).split_ptr <
          (run id t0ex [Op.ins 1 10, Op.ins 2 20, Op.ins 3 30]).init_size <<<
            (run id t0ex [Op.ins 1 10, Op.ins 2 20, Op.ins 3 30]).depth) :=
  ⟨make_t0ex,
    (table_length_invariant id 2 (mkRat 3 4) t0ex make_t0ex
      [Op.ins 1 10, Op.ins 2 20, Op.ins 3 30]).1⟩

/-- C6 counterexample: the claim predicts an invalid-argument failure when
`max_load_factor ≤ 0`, but the constructor checks only `init_size`:
construction with `(2, 0)` (load factor `0 ≤ 0`) succeeds. -/
theorem constructor_load_factor_not_checked :
    ((0:ℚ) ≤ 0) ∧ (make 2 0).isSome = true :=
  ⟨le_refl 0, by decide⟩

/-- C6 amended: construction signals an invalid-argument failure exactly when
`init_size` is zero or not a power of two (`max_load_factor` is not validated);
on success the table has `init_size` empty buckets, `size() = 0`,
`capacity() = init_size` and `split_ptr() = 0`. -/
theorem constructor_validation (size : Nat) (lf : ℚ) :
    (make size lf = none ↔ (size = 0 ∨ ¬ ∃ j, size = 2 ^ j)) ∧
      (∀ t, make size lf = some t →
        t.table = List.replicate size [] ∧ t.num_elem = 0 ∧
          t.table.length = size ∧ t.split_ptr = 0 ∧ t.init_size = size) := by
  refine ⟨make_eq_none_iff size lf, ?_⟩
  intro t hmk
  obtain ⟨htab, hlf, hnum, hsp, hsz, hd⟩ := make_some_fields hmk
  refine ⟨htab, hnum, ?_, hsp, hsz⟩
  rw [htab]
  simp

theorem constructor_validation_witness :
    make 2 (mkRat 3 4) = some t0ex ∧
      (t0ex.table = List.replicate 2 [] ∧ t0ex.num_elem = 0 ∧
        t0ex.table.length = 2 ∧ t0ex.split_ptr = 0 ∧ t0ex.init_size = 2) :=
  ⟨make_t0ex, (constructor_validation 2 (mkRat 3 4)).2 t0ex make_t0ex⟩

/-- C7: inserting a key that is already present overwrites its value and leaves
`num_elem`, capacity, `split_ptr` and `depth` unchanged (no split is
triggered); consequently `insert(k,v); insert(k,v)` leaves the container
identical — including `num_elem` — to `insert(k,v)` alone, for every
well-formed prior state. -/
theorem overwrite_insert_idempotent (h : Nat → Nat) (t : LinearHash) (k v : Nat)
    (w : WF h t) :
    (contains h t k = true →
      get h (insert h t k v) k = some v ∧
      (insert h t k v).num_elem = t.num_elem ∧
      (insert h t k v).table.length = t.table.length ∧
      (insert h t k v).split_ptr = t.split_ptr ∧
      (insert h t k v).depth = t.depth) ∧
    insert h (insert h t k v) k v = insert h t k v := by
  constructor
  · intro hc
    rw [contains_eq_overwrite_isSome h t k v] at hc
    obtain ⟨b', hov⟩ := Option.isSome_iff_exists.mp hc
    refine ⟨get_insert_self w k v, ?_, ?_, ?_, ?_⟩ <;> rw [insert_over_eq hov] <;> simp
  · have w' := wf_insert w k v
    have hget := get_insert_self w k v
    have hi' := wf_hash2bucket_lt_len w' k
    simp only [get] at hget
    cases hf : ((insert h t k v).table.getD (hash2bucket h (insert h t k v) k) []).find?
        (fun e => e.key == k) with
    | none =>
      rw [hf] at hget
      simp at hget
    | some e =>
      rw [hf] at hget
      simp only [Option.map_some', Option.some.injEq] at hget
      have hkey : e.key = k := by
        have := List.find?_some hf
        simpa using this
      have hev : e = { key := k, value := v } := by
        cases e
        simp_all
      rw [hev] at hf
      have hov' := overwriteList_self_of_find hf
      rw [insert_over_eq hov', set_getD_self _ _ hi' _]

theorem overwrite_insert_idempotent_witness :
    WF id tex1 ∧ contains id tex1 1 = true ∧
      (get id (insert id tex1 1 99) 1 = some 99 ∧
        (insert id tex1 1 99).num_elem = tex1.num_elem ∧
        (insert id tex1 1 99).table.length = tex1.table.length ∧
        (insert id tex1 1 99).split_ptr = tex1.split_ptr ∧
        (insert id tex1 1 99).depth = tex1.depth) ∧
      insert id (insert id tex1 1 99) 1 99 = insert id tex1 1 99 :=
  ⟨wf_tex1, by decide,
    (overwrite_insert_idempotent id tex1 1 99 wf_tex1).1 (by decide),
    (overwrite_insert_idempotent id tex1 1 99 wf_tex1).2⟩

/-- C8: on a well-formed table, `remove(k)` returns `true` and decrements
`num_elem` by exactly one when `k` is present, removing only that entry
(`get(k)` becomes absent, all other keys keep their bindings); it returns
`false` and leaves the container completely unchanged when `k` is absent —
absence is a boolean return, with no error modelled. -/
theorem remove_present_absent (h : Nat → Nat) (t : LinearHash) (k : Nat)
    (w : WF h t) :
    (contains h t k = true →
      (remove h t k).1 = true ∧ (remove h t k).2.num_elem + 1 = t.num_elem ∧
        get h (remove h t k).2 k = none ∧
        ∀ k', k' ≠ k → get h (remove h t k).2 k' = get h t k') ∧
    (contains h t k = false → remove h t k = (false, t)) := by
  constructor
  · intro hc
    cases hfi : (t.table.getD (hash2bucket h t k) []).findIdx? (fun e => e.key == k) with
    | none =>
      exfalso
      have := (contains_false_iff_findIdx h t k).mpr hfi
      rw [this] at hc
      cases hc
    | some j =>
      obtain ⟨hj, hpj, _⟩ := List.findIdx?_eq_some_iff_getElem.mp hfi
      obtain ⟨htab, hnum, hret⟩ := remove_some_table hfi
      refine ⟨hret, ?_, get_remove_self w k, fun k' hk' => get_remove_ne w hk'⟩
      rw [hnum, w.count]
      have h1 := getD_length_le_sumLen t.table (hash2bucket h t k)
      omega
  · intro hc
    exact remove_none_eq ((contains_false_iff_findIdx h t k).mp hc)

theorem remove_present_absent_witness :
    WF id tex1 ∧ contains id tex1 1 = true ∧ contains id tex1 7 = false ∧
      ((remove id tex1 1).1 = true ∧ (remove id tex1 1).2.num_elem + 1 = tex1.num_elem ∧
        get id (remove id tex1 1).2 1 = none ∧
        ∀ k', k' ≠ 1 → get id (remove id tex1 1).2 k' = get id tex1 k') ∧
      remove id tex1 7 = (false, tex1) :=
  ⟨wf_tex1, by decide, by decide,
    (remove_present_absent id tex1 1 wf_tex1).1 (by decide),
    (remove_present_absent id tex1 7 wf_tex1).2 (by decide)⟩

/-- C9: on a quiescent table, iterating from `begin()` until `end()` visits
exactly the entries of the table, in bucket-index order and within a bucket in
storage order (the traversal equals `table.flatten`), skipping physically
empty buckets; the end iterator has `bucket_idx = table.length`, and
`begin() = end()` iff the container holds no entry. -/
theorem iterator_traverses_all (t : LinearHash) :
    iterTraverse t.table = t.table.flatten ∧
      (iterEnd t.table).bucket_idx = t.table.length ∧
      (iterBegin t.table = iterEnd t.table ↔ t.table.flatten = []) :=
  ⟨iterTraverse_eq_flatten t.table, by rw [iterEnd_eq], iterBegin_eq_end_iff t.table⟩

/-- C10 counterexample: with only the two invariants stated by the claim
(`split_ptr < init_size << depth` and
`table.length = (init_size << depth) + split_ptr`) but an `init_size` that is
not a power of two (`3`, unreachable through the checked constructor), the
address function escapes the table: a key hashing to `5` is mapped to bucket
`5` in a table of length `4`. -/
theorem hash2bucket_out_of_range_counterexample :
    badState.split_ptr < badState.init_size <<< badState.depth ∧
      badState.table.length =
        (badState.init_size <<< badState.depth) + badState.split_ptr ∧
      hash2bucket id badState 5 = 5 ∧ badState.table.length = 4 ∧
      ¬ hash2bucket id badState 5 < badState.table.length := by
  decide

/-- C10 amended: under the state invariants including spec invariant 1
(`init_size` a power of two, which the constructor enforces),
`hash2bucket` always returns an index strictly below `table.length`, so the
`table.at(hash2bucket(key))` lookups inside `insert`, `get`, `in` and `remove`
never take their out-of-range error branch. -/
theorem hash2bucket_in_range (h : Nat → Nat) (t : LinearHash)
    (hpow : ∃ j, t.init_size = 2 ^ j)
    (hsp : t.split_ptr < t.init_size <<< t.depth)
    (hlen : t.table.length = (t.init_size <<< t.depth) + t.split_ptr) (k : Nat) :
    hash2bucket h t k < t.table.length := by
  obtain ⟨j, hj⟩ := hpow
  have hm : t.init_size <<< t.depth = 2 ^ (j + t.depth) := by
    rw [hj, Nat.shiftLeft_eq, ← Nat.pow_add]
  rw [hlen, hm]
  exact hash2bucket_lt hm k

theorem hash2bucket_in_range_witness :
    (∃ j, t0ex.init_size = 2 ^ j) ∧
      t0ex.split_ptr < t0ex.init_size <<< t0ex.depth ∧
      t0ex.table.length = (t0ex.init_size <<< t0ex.depth) + t0ex.split_ptr ∧
      hash2bucket id t0ex 5 < t0ex.table.length :=
  ⟨⟨1, rfl⟩, by decide, by decide,
    hash2bucket_in_range id t0ex ⟨1, rfl⟩ (by decide) (by decide) 5⟩

end LinearHash
